import Mathlib

/-!
# Stored-procedure wrapper generator: signature parser, name transformer, emitter

A shallow embedding of `cmd/generate-procedures/main.go`, and of the copy of the
signature parser in `cmd/scan/main.go` (namespace `Scan`).

Go strings are byte sequences.  They are modelled as lists of naturals, each
element standing for one byte (a value below 256); every statement that is
quantified over all lists covers, in particular, all byte strings.  Text
constants of the source are written as Lean string literals and turned into
their UTF-8 bytes by `bytes`.

The functions of Go's `strings`, `unicode` and `unicode/utf8` packages that the
source calls are modelled here from their Go definitions, byte for byte.  The
only part that is taken as a parameter is the case-mapping table of the
`unicode` package for code points above U+007F (`CaseRanges`).
-/

set_option maxRecDepth 100000

namespace GenProc

/-! ## UTF-8 (package `unicode/utf8`) -/

/-- The replacement rune U+FFFD, `utf8.RuneError`. -/
def RuneError : Nat := 0xFFFD

/-- The bound `utf8.RuneSelf`: bytes below it are single-byte runes. -/
def RuneSelf : Nat := 0x80

/-- A continuation byte `10xxxxxx`. -/
def isCont (b : Nat) : Bool := decide (0x80 ≤ b) && decide (b ≤ 0xBF)

/-- `utf8.DecodeRuneInString`: the first rune of `s` and its width in bytes.
Invalid or truncated encodings give `(RuneError, 1)`, the empty string
`(RuneError, 0)`. -/
def DecodeRuneInString : List Nat → Nat × Nat
  | [] => (RuneError, 0)
  | b0 :: rest =>
    if b0 < 0x80 then (b0, 1)
    else if 0xC2 ≤ b0 ∧ b0 ≤ 0xDF then
      match rest with
      | b1 :: _ =>
        if isCont b1 then ((b0 - 0xC0) * 64 + (b1 - 0x80), 2) else (RuneError, 1)
      | [] => (RuneError, 1)
    else if 0xE0 ≤ b0 ∧ b0 ≤ 0xEF then
      match rest with
      | b1 :: b2 :: _ =>
        let lo := if b0 = 0xE0 then 0xA0 else 0x80
        let hi := if b0 = 0xED then 0x9F else 0xBF
        if lo ≤ b1 ∧ b1 ≤ hi ∧ isCont b2 then
          ((b0 - 0xE0) * 4096 + (b1 - 0x80) * 64 + (b2 - 0x80), 3)
        else (RuneError, 1)
      | _ => (RuneError, 1)
    else if 0xF0 ≤ b0 ∧ b0 ≤ 0xF4 then
      match rest with
      | b1 :: b2 :: b3 :: _ =>
        let lo := if b0 = 0xF0 then 0x90 else 0x80
        let hi := if b0 = 0xF4 then 0x8F else 0xBF
        if lo ≤ b1 ∧ b1 ≤ hi ∧ isCont b2 ∧ isCont b3 then
          ((b0 - 0xF0) * 262144 + (b1 - 0x80) * 4096 + (b2 - 0x80) * 64 + (b3 - 0x80), 4)
        else (RuneError, 1)
      | _ => (RuneError, 1)
    else (RuneError, 1)

/-- `utf8.AppendRune` on an empty buffer: the UTF-8 encoding of a rune.
Surrogates and values above U+10FFFF are encoded as `RuneError`. -/
def EncodeRune (r : Nat) : List Nat :=
  if r ≤ 0x7F then [r]
  else if r ≤ 0x7FF then [0xC0 + r / 64, 0x80 + r % 64]
  else if 0x10FFFF < r ∨ (0xD800 ≤ r ∧ r ≤ 0xDFFF) then [0xEF, 0xBF, 0xBD]
  else if r ≤ 0xFFFF then [0xE0 + r / 4096, 0x80 + r / 64 % 64, 0x80 + r % 64]
  else [0xF0 + r / 262144, 0x80 + r / 4096 % 64, 0x80 + r / 64 % 64, 0x80 + r % 64]

/-- The UTF-8 bytes of a text constant. -/
def bytes (s : String) : List Nat :=
  s.data.flatMap fun c => EncodeRune c.toNat

/-- Every byte is below `utf8.RuneSelf`. -/
def isASCII (s : List Nat) : Bool := s.all fun b => decide (b < 0x80)

/-! ## Case mapping (packages `unicode` and `strings`) -/

/-- The case-mapping table of Go's `unicode` package for the code points above
U+007F, that is `unicode.To(unicode.UpperCase, r)` and
`unicode.To(unicode.LowerCase, r)`.  The table is not part of the repository
and is a parameter of the model. -/
structure CaseRanges where
  toUpper : Nat → Nat
  toLower : Nat → Nat

/-- Upper-casing of one ASCII byte, `c -= 'a' - 'A'` for `'a' <= c <= 'z'`; other
bytes are unchanged. -/
def upperByte (c : Nat) : Nat := if 0x61 ≤ c ∧ c ≤ 0x7A then c - 0x20 else c

/-- Lower-casing of one ASCII byte, `c += 'a' - 'A'` for `'A' <= c <= 'Z'`; other
bytes are unchanged. -/
def lowerByte (c : Nat) : Nat := if 0x41 ≤ c ∧ c ≤ 0x5A then c + 0x20 else c

/-- `unicode.ToUpper`: ASCII is handled before the table is consulted. -/
def unicodeToUpper (T : CaseRanges) (r : Nat) : Nat :=
  if r ≤ 0x7F then upperByte r else T.toUpper r

/-- `unicode.ToLower`: ASCII is handled before the table is consulted. -/
def unicodeToLower (T : CaseRanges) (r : Nat) : Nat :=
  if r ≤ 0x7F then lowerByte r else T.toLower r

/-- The loop of `strings.Map`: `skip` counts the bytes of the current rune that
are still to be passed over.  Every rune `c` of the input, an invalid byte
counting as `RuneError` of width one, is replaced by the encoding of
`mapping c`. -/
def mapRunes (mapping : Nat → Nat) : Nat → List Nat → List Nat
  | _, [] => []
  | skip + 1, _ :: rest => mapRunes mapping skip rest
  | 0, b :: rest =>
    let d := DecodeRuneInString (b :: rest)
    EncodeRune (mapping d.1) ++ mapRunes mapping (d.2 - 1) rest

/-- `strings.Map` for a mapping that never returns a negative rune. -/
def Map (mapping : Nat → Nat) (s : List Nat) : List Nat := mapRunes mapping 0 s

/-- `strings.ToUpper`: a byte-wise fast path for ASCII-only text, `strings.Map`
with `unicode.ToUpper` otherwise. -/
def ToUpper (T : CaseRanges) (s : List Nat) : List Nat :=
  if isASCII s then s.map upperByte else Map (unicodeToUpper T) s

/-- `strings.ToLower`: a byte-wise fast path for ASCII-only text, `strings.Map`
with `unicode.ToLower` otherwise. -/
def ToLower (T : CaseRanges) (s : List Nat) : List Nat :=
  if isASCII s then s.map lowerByte else Map (unicodeToLower T) s

/-- The entries of Go's `unicode.CaseRanges` for the Latin-1 letters and for
U+0250 (whose upper-case form is U+2C6F), the code points at which the tables
are evaluated below.  Other code points are left unchanged here; among them is
U+FFFD, which has no case mapping.  General statements are proved for every
table, evaluations at concrete texts use this one. -/
def latinCaseRanges : CaseRanges where
  toUpper r :=
    if r = 0xB5 then 0x39C
    else if (0xE0 ≤ r ∧ r ≤ 0xF6) ∨ (0xF8 ≤ r ∧ r ≤ 0xFE) then r - 32
    else if r = 0xFF then 0x178
    else if r = 0x250 then 0x2C6F
    else r
  toLower r :=
    if (0xC0 ≤ r ∧ r ≤ 0xD6) ∨ (0xD8 ≤ r ∧ r ≤ 0xDE) then r + 32 else r

/-! ## Splitting and joining (package `strings`) -/

/-- `strings.Split(s, sep)` for a one-byte separator, which is what all three
call sites of the source pass (`"_"`, `","` and `" "`). -/
def Split (s : List Nat) (sep : Nat) : List (List Nat) :=
  match s with
  | [] => [[]]
  | c :: cs =>
    if c = sep then [] :: Split cs sep
    else
      match Split cs sep with
      | [] => [[c]]
      | p :: ps => (c :: p) :: ps

/-- `strings.Join(elems, sep)`. -/
def Join (elems : List (List Nat)) (sep : List Nat) : List Nat :=
  match elems with
  | [] => []
  | [e] => e
  | e :: es => e ++ sep ++ Join es sep

/-- `strings.Repeat(s, count)`. -/
def Repeat (s : List Nat) : Nat → List Nat
  | 0 => []
  | n + 1 => s ++ Repeat s n

/-! ## NameTransformer -/

/-- The loop body of `toCamelCase`: a non-empty part becomes
`ToUpper(part[:1]) + ToLower(part[1:])`, the slices being byte slices. -/
def camelPart (T : CaseRanges) (part : List Nat) : List Nat :=
  if part.length > 0 then ToUpper T (part.take 1) ++ ToLower T (part.drop 1)
  else part

/-- `toCamelCase`. -/
def toCamelCase (T : CaseRanges) (str : List Nat) : List Nat :=
  Join ((Split str 0x5F).map (camelPart T)) []

/-! ## Searching and slicing -/

/-- The loop of `strings.Index`: `i` is the offset of `s` in the searched text. -/
def indexFrom (sub : List Nat) : List Nat → Nat → Option Nat
  | [], i => if sub = [] then some i else none
  | c :: cs, i => if sub.isPrefixOf (c :: cs) then some i else indexFrom sub cs (i + 1)

/-- `strings.Index(s, substr)`: the byte offset of the first occurrence of
`substr` in `s`; `none` stands for the result `-1`. -/
def Index (s sub : List Nat) : Option Nat := indexFrom sub s 0

/-- The slice expression `s[lo:]`; `none` is the run-time panic
"slice bounds out of range". -/
def sliceFrom (s : List Nat) (lo : Nat) : Option (List Nat) :=
  if lo ≤ s.length then some (s.drop lo) else none

/-- The slice expression `s[lo:hi]`; `none` is the run-time panic
"slice bounds out of range". -/
def slice (s : List Nat) (lo hi : Nat) : Option (List Nat) :=
  if lo ≤ hi ∧ hi ≤ s.length then some ((s.take hi).drop lo) else none

/-! ## White space (packages `unicode` and `strings`) -/

/-- The table `asciiSpace` of package `strings`. -/
def asciiSpace (c : Nat) : Bool :=
  c == 0x09 || c == 0x0A || c == 0x0B || c == 0x0C || c == 0x0D || c == 0x20

/-- `unicode.IsSpace`. -/
def IsSpace (r : Nat) : Bool :=
  if r ≤ 0xFF then
    r == 0x09 || r == 0x0A || r == 0x0B || r == 0x0C || r == 0x0D || r == 0x20 ||
      r == 0x85 || r == 0xA0
  else
    r == 0x1680 || (decide (0x2000 ≤ r) && decide (r ≤ 0x200A)) || r == 0x2028 ||
      r == 0x2029 || r == 0x202F || r == 0x205F || r == 0x3000

/-- `strings.TrimLeftFunc(s, unicode.IsSpace)`: drops leading runes that are
white space.  `skip` counts the remaining bytes of a rune being dropped. -/
def trimLeftSpace : Nat → List Nat → List Nat
  | _, [] => []
  | skip + 1, _ :: rest => trimLeftSpace skip rest
  | 0, b :: rest =>
    let d := DecodeRuneInString (b :: rest)
    if IsSpace d.1 then trimLeftSpace (d.2 - 1) rest else b :: rest

/-- `utf8.RuneStart`: the byte is not a continuation byte. -/
def RuneStart (b : Nat) : Bool := !(isCont b)

/-- The offset at which `utf8.DecodeLastRuneInString` starts decoding when the
last byte is not ASCII: it walks back from the byte before the last one, over
at most three bytes, to the nearest byte that can start a rune. -/
def lastRuneStart (s : List Nat) : Nat :=
  let e := s.length
  if 2 ≤ e ∧ RuneStart (s.getD (e - 2) 0) then e - 2
  else if 3 ≤ e ∧ RuneStart (s.getD (e - 3) 0) then e - 3
  else if 4 ≤ e ∧ RuneStart (s.getD (e - 4) 0) then e - 4
  else e - 5

/-- `utf8.DecodeLastRuneInString`: the last rune of `s` and its width. -/
def DecodeLastRuneInString (s : List Nat) : Nat × Nat :=
  match s.getLast? with
  | none => (RuneError, 0)
  | some r =>
    if r < RuneSelf then (r, 1)
    else
      let start := lastRuneStart s
      let d := DecodeRuneInString (s.drop start)
      if start + d.2 ≠ s.length then (RuneError, 1) else d

/-- `lastIndexFunc(s, unicode.IsSpace, false)` of package `strings`: the offset
of the last rune that is not white space.  Each step removes at least one
byte, so `s.length` steps are enough. -/
def lastIndexNonSpace : Nat → List Nat → Option Nat
  | 0, _ => none
  | fuel + 1, s =>
    if s = [] then none
    else
      let d := DecodeLastRuneInString s
      let i := s.length - d.2
      if IsSpace d.1 then lastIndexNonSpace fuel (s.take i) else some i

/-- `strings.TrimRightFunc(s, unicode.IsSpace)`. -/
def TrimRightSpace (s : List Nat) : List Nat :=
  match lastIndexNonSpace s.length s with
  | none => []
  | some i =>
    if s.getD i 0 ≥ RuneSelf then s.take (i + (DecodeRuneInString (s.drop i)).2)
    else s.take (i + 1)

/-- `strings.TrimSpace`: ASCII white space is stripped byte-wise from both
ends; as soon as a byte that is not ASCII is met, the rest of the work is
handed to the rune-wise `TrimFunc` or `TrimRightFunc`. -/
def TrimSpace (s : List Nat) : List Nat :=
  let front := s.dropWhile asciiSpace
  match front with
  | [] => []
  | c :: _ =>
    if c ≥ RuneSelf then TrimRightSpace (trimLeftSpace 0 front)
    else
      let back := front.reverse.dropWhile asciiSpace
      match back with
      | [] => []
      | d :: _ => if d ≥ RuneSelf then TrimRightSpace back.reverse else back.reverse

/-- The ASCII path of `strings.Fields`: `cur` is the field being read. -/
def fieldsASCII : List Nat → List Nat → List (List Nat)
  | cur, [] => if cur = [] then [] else [cur]
  | cur, c :: cs =>
    if asciiSpace c then
      if cur = [] then fieldsASCII [] cs else cur :: fieldsASCII [] cs
    else fieldsASCII (cur ++ [c]) cs

/-- `strings.FieldsFunc(s, unicode.IsSpace)`: `cur` is the field being read,
`skip` the number of bytes left of the current rune and `keep` whether that
rune belongs to a field. -/
def fieldsRunes : Nat → Bool → List Nat → List Nat → List (List Nat)
  | _, _, cur, [] => if cur = [] then [] else [cur]
  | skip + 1, keep, cur, b :: rest =>
    fieldsRunes skip keep (if keep then cur ++ [b] else cur) rest
  | 0, _, cur, b :: rest =>
    let d := DecodeRuneInString (b :: rest)
    if IsSpace d.1 then
      if cur = [] then fieldsRunes (d.2 - 1) false [] rest
      else cur :: fieldsRunes (d.2 - 1) false [] rest
    else fieldsRunes (d.2 - 1) true (cur ++ [b]) rest

/-- `strings.Fields`. -/
def Fields (s : List Nat) : List (List Nat) :=
  if isASCII s then fieldsASCII [] s else fieldsRunes 0 false [] s

/-- `strings.EqualFold(s, t)` for `t` one of the literals `"IN"`, `"OUT"` and
`"INOUT"` of the source.  Their letters fold only to their ASCII lower-case
forms, so Unicode case folding agrees there with the byte-wise comparison
up to ASCII case. -/
def EqualFold : List Nat → List Nat → Bool
  | [], [] => true
  | a :: s, b :: t => upperByte a == upperByte b && EqualFold s t
  | _, _ => false

/-! ## SignatureParser -/

/-- The test of the inner loop of `parseProcedureParameters`: the word is none
of the direction keywords. -/
def notDirection (word : List Nat) : Bool :=
  !EqualFold word (bytes "IN") && !EqualFold word (bytes "OUT") &&
    !EqualFold word (bytes "INOUT")

/-- The inner loop `for i, word := range words`: the first word with `i > 0`
that is not a direction keyword, cut at its first space, or nothing when the
loop ends without `break`. -/
def scanWords : Nat → List (List Nat) → Option (List Nat)
  | _, [] => none
  | i, word :: rest =>
    if i > 0 ∧ notDirection word then some ((Split word 0x20).headD [])
    else scanWords (i + 1) rest

/-- The body of the loop over `paramParts`: what one clause appends to
`params`. -/
def partParams (part : List Nat) : List (List Nat) :=
  let part := TrimSpace part
  if part ≠ [] then
    let words := Fields part
    if words.length ≥ 2 then (scanWords 0 words).toList else []
  else []

/-- `parseProcedureParameters`.  `none` is a run-time panic raised by one of the
three slice expressions. -/
def parseProcedureParameters (T : CaseRanges) (definition : List Nat) :
    Option (List (List Nat)) :=
  if definition = [] then some []
  else
    let upperDef := ToUpper T definition
    match Index upperDef (bytes "PROCEDURE") with
    | none => some []
    | some start =>
      match sliceFrom definition start with
      | none => none
      | some afterKeyword =>
        match Index afterKeyword (bytes "(") with
        | none => some []
        | some leftParen =>
          match sliceFrom definition (start + leftParen) with
          | none => none
          | some afterParen =>
            match Index afterParen (bytes ")") with
            | none => some []
            | some rightParen =>
              match slice definition (start + leftParen + 1) (start + leftParen + rightParen) with
              | none => none
              | some paramStr =>
                let paramStr := TrimSpace paramStr
                if paramStr = [] then some []
                else some ((Split paramStr 0x2C).flatMap partParams)

/-! ## SignatureParser of `cmd/scan`

The second copy of the parser, in `cmd/scan/main.go`.  It has no test for the
empty text, does not trim the parameter text, and appends the chosen word as it
stands. -/

namespace Scan

/-- The inner loop of `parseProcedureParameters` in `cmd/scan/main.go`: the first
word with `i > 0` that is not a direction keyword, as it stands. -/
def scanWords : Nat → List (List Nat) → Option (List Nat)
  | _, [] => none
  | i, word :: rest =>
    if i > 0 ∧ notDirection word then some word else scanWords (i + 1) rest

/-- The body of the loop over `paramParts` in `cmd/scan/main.go`. -/
def partParams (part : List Nat) : List (List Nat) :=
  let part := TrimSpace part
  if part ≠ [] then
    let words := Fields part
    if words.length ≥ 2 then (scanWords 0 words).toList else []
  else []

/-- `parseProcedureParameters` of `cmd/scan/main.go`.  `none` is a run-time panic
raised by one of the three slice expressions. -/
def parseProcedureParameters (T : CaseRanges) (definition : List Nat) :
    Option (List (List Nat)) :=
  match Index (ToUpper T definition) (bytes "PROCEDURE") with
  | none => some []
  | some start =>
    match sliceFrom definition start with
    | none => none
    | some afterKeyword =>
      match Index afterKeyword (bytes "(") with
      | none => some []
      | some leftParen =>
        match sliceFrom definition (start + leftParen) with
        | none => none
        | some afterParen =>
          match Index afterParen (bytes ")") with
          | none => some []
          | some rightParen =>
            match slice definition (start + leftParen + 1) (start + leftParen + rightParen) with
            | none => none
            | some paramStr =>
              if paramStr = [] then some []
              else some ((Split paramStr 0x2C).flatMap partParams)

end Scan

/-! ## WrapperEmitter

A `strings.Builder` is modelled by the bytes written so far; `WriteString`
appends, and `fmt.Sprintf` with `%s` verbs is the concatenation of the pieces of
the format string with the arguments. -/

/-- `ProcedureInfo`. -/
structure ProcedureInfo where
  Name : List Nat
  Parameters : List (List Nat)
  ReturnType : List Nat
  Definition : List Nat

/-- `DatabaseConfig`. -/
structure DatabaseConfig where
  Name : List Nat
  DSN : List Nat
  OutPath : List Nat
  Procedures : List (List Nat)

/-- `generateProcedureMethod`: the builder after the two wrappers of `proc` have
been written to `code`. -/
def generateProcedureMethod (T : CaseRanges) (code : List Nat) (proc : ProcedureInfo) :
    List Nat :=
  let methodName := toCamelCase T proc.Name
  let code := code ++ (bytes "// " ++ methodName ++ bytes " 调用存储过程 " ++ proc.Name ++ bytes "\n")
  let params := proc.Parameters.map fun param => toCamelCase T param ++ bytes " interface\x7b\x7d"
  let callParams := proc.Parameters.map fun param => toCamelCase T param
  let paramStr := Join params (bytes ", ")
  let paramStr := if paramStr ≠ [] then bytes ", " ++ paramStr else paramStr
  let code := code ++ (bytes "func (pc *ProcedureCaller) " ++ methodName ++
    bytes "(ctx context.Context" ++ paramStr ++ bytes ") error \x7b\n")
  let code :=
    if proc.Parameters.length > 0 then
      code ++ (bytes "\treturn pc.db.WithContext(ctx).Exec(\"CALL " ++ proc.Name ++ bytes "(" ++
        (Repeat (bytes "?,") (proc.Parameters.length - 1) ++ bytes "?") ++ bytes ")\", " ++
        Join callParams (bytes ", ") ++ bytes ").Error\n")
    else
      code ++ (bytes "\treturn pc.db.WithContext(ctx).Exec(\"CALL " ++ proc.Name ++
        bytes "()\").Error\n")
  let code := code ++ bytes "\x7d\n\n"
  let resultMethodName := methodName ++ bytes "WithResult"
  let code := code ++ (bytes "// " ++ resultMethodName ++ bytes " 调用存储过程 " ++ proc.Name ++
    bytes " 并返回结果\n")
  let code := code ++ (bytes "func (pc *ProcedureCaller) " ++ resultMethodName ++
    bytes "(ctx context.Context" ++ paramStr ++
    bytes ") ([]map[string]interface\x7b\x7d, error) \x7b\n")
  let code := code ++ bytes "\tvar results []map[string]interface\x7b\x7d\n"
  let code :=
    if proc.Parameters.length > 0 then
      code ++ (bytes "\trows, err := pc.db.WithContext(ctx).Raw(\"CALL " ++ proc.Name ++
        bytes "(" ++ (Repeat (bytes "?,") (proc.Parameters.length - 1) ++ bytes "?") ++
        bytes ")\", " ++ Join callParams (bytes ", ") ++ bytes ").Rows()\n")
    else
      code ++ (bytes "\trows, err := pc.db.WithContext(ctx).Raw(\"CALL " ++ proc.Name ++
        bytes "()\").Rows()\n")
  let code := code ++ bytes "\tif err != nil \x7b\n"
  let code := code ++ bytes "\t\treturn nil, err\n"
  let code := code ++ bytes "\t\x7d\n"
  let code := code ++ bytes "\tdefer rows.Close()\n\n"
  let code := code ++ bytes "\tcolumns, err := rows.Columns()\n"
  let code := code ++ bytes "\tif err != nil \x7b\n"
  let code := code ++ bytes "\t\treturn nil, err\n"
  let code := code ++ bytes "\t\x7d\n\n"
  let code := code ++ bytes "\tfor rows.Next() \x7b\n"
  let code := code ++ bytes "\t\tvalues := make([]interface\x7b\x7d, len(columns))\n"
  let code := code ++ bytes "\t\tscanArgs := make([]interface\x7b\x7d, len(values))\n"
  let code := code ++ bytes "\t\tfor i := range values \x7b\n"
  let code := code ++ bytes "\t\t\tscanArgs[i] = &values[i]\n"
  let code := code ++ bytes "\t\t\x7d\n\n"
  let code := code ++ bytes "\t\terr = rows.Scan(scanArgs...)\n"
  let code := code ++ bytes "\t\tif err != nil \x7b\n"
  let code := code ++ bytes "\t\t\treturn nil, err\n"
  let code := code ++ bytes "\t\t\x7d\n\n"
  let code := code ++ bytes "\t\trow := make(map[string]interface\x7b\x7d)\n"
  let code := code ++ bytes "\t\tfor i, col := range columns \x7b\n"
  let code := code ++ bytes "\t\t\trow[col] = values[i]\n"
  let code := code ++ bytes "\t\t\x7d\n"
  let code := code ++ bytes "\t\tresults = append(results, row)\n"
  let code := code ++ bytes "\t\x7d\n\n"
  let code := code ++ bytes "\treturn results, nil\n"
  code ++ bytes "\x7d\n\n"

/-- The builder of `generateProcedureFile` when the loop over the procedures
is reached: marker lines, package clause, imports, the `ProcedureCaller` type
and its constructor. -/
def writePreamble (code : List Nat) : List Nat :=
  let code := code ++ bytes "// Code generated by gorm.io/gen. DO NOT EDIT.\n"
  let code := code ++ bytes "// Code generated by gorm.io/gen. DO NOT EDIT.\n"
  let code := code ++ bytes "// Code generated by gorm.io/gen. DO NOT EDIT.\n\n"
  let code := code ++ bytes "package procedures\n\n"
  let code := code ++ bytes "import (\n"
  let code := code ++ bytes "\t\"context\"\n"
  let code := code ++ bytes "\t\"database/sql\"\n"
  let code := code ++ bytes "\t\"fmt\"\n"
  let code := code ++ bytes "\t\"gorm.io/gorm\"\n"
  let code := code ++ bytes ")\n\n"
  let code := code ++ bytes "// ProcedureCaller 存储过程调用器\n"
  let code := code ++ bytes "type ProcedureCaller struct \x7b\n"
  let code := code ++ bytes "\tdb *gorm.DB\n"
  let code := code ++ bytes "\x7d\n\n"
  let code := code ++ bytes "// NewProcedureCaller 创建存储过程调用器\n"
  let code := code ++ bytes "func NewProcedureCaller(db *gorm.DB) *ProcedureCaller \x7b\n"
  let code := code ++ bytes "\treturn &ProcedureCaller\x7bdb: db\x7d\n"
  code ++ bytes "\x7d\n\n"

/-- The writes of `generateProcedureFile` after the loop: the `Transaction` and
`WithContext` helpers. -/
def writeHelpers (code : List Nat) : List Nat :=
  let code := code ++ bytes "// Transaction 执行事务中的存储过程\n"
  let code := code ++ bytes "func (pc *ProcedureCaller) Transaction(fc func(tx *ProcedureCaller) error, opts ...*sql.TxOptions) error \x7b\n"
  let code := code ++ bytes "\treturn pc.db.Transaction(func(tx *gorm.DB) error \x7b\n"
  let code := code ++ bytes "\t\treturn fc(NewProcedureCaller(tx))\n"
  let code := code ++ bytes "\t\x7d, opts...)\n"
  let code := code ++ bytes "\x7d\n\n"
  let code := code ++ bytes "// WithContext 设置上下文\n"
  let code := code ++ bytes "func (pc *ProcedureCaller) WithContext(ctx context.Context) *ProcedureCaller \x7b\n"
  let code := code ++ bytes "\treturn &ProcedureCaller\x7bdb: pc.db.WithContext(ctx)\x7d\n"
  code ++ bytes "\x7d\n"

/-- `generateProcedureFile` up to the call of `ioutil.WriteFile`: the file path
and the text that are handed to it. -/
def generateProcedureFile (T : CaseRanges) (dbConfig : DatabaseConfig)
    (procedures : List ProcedureInfo) : List Nat × List Nat :=
  let code := writePreamble []
  let code := procedures.foldl (fun code proc => generateProcedureMethod T code proc) code
  let code := writeHelpers code
  let filePath := dbConfig.OutPath ++ bytes "/procedures.gen.go"
  (filePath, code)

/-! ## Batch driver -/

/-- What `main` writes while it runs: lines on standard output (`fmt.Printf`,
`fmt.Println`) and lines on the logger (`log.Printf`). -/
inductive Output where
  | stdout (text : List Nat)
  | logger (text : List Nat)
  deriving DecidableEq

/-- The loop of `main` over `config.Databases`.  The per-database step
`generateProcedures` talks to the database and the file system; it is a
parameter that maps the state `σ` of that outside world and a config to the new
state and to the returned error (`none` for `nil`, `some msg` for an error with
text `msg`).  `out` collects what has been written so far. -/
def mainLoop {σ : Type} (generateProcedures : σ → DatabaseConfig → σ × Option (List Nat)) :
    σ → List Output → List DatabaseConfig → σ × List Output
  | w, out, [] => (w, out)
  | w, out, dbConfig :: rest =>
    let out := out ++ [Output.stdout
      (bytes "\n正在生成数据库 " ++ dbConfig.Name ++ bytes " 的存储过程包装方法...\n")]
    let r := generateProcedures w dbConfig
    match r.2 with
    | some err =>
      mainLoop generateProcedures r.1 (out ++ [Output.logger
        (bytes "生成数据库 " ++ dbConfig.Name ++ bytes " 的存储过程失败: " ++ err)]) rest
    | none =>
      mainLoop generateProcedures r.1 (out ++ [Output.stdout
        (bytes "数据库 " ++ dbConfig.Name ++ bytes " 的存储过程包装方法生成完成！\n")]) rest

/-! ## Specification-side notions used in the statements -/

/-- The placeholder list of a `CALL` statement with `n` arguments: `n` question
marks separated by commas. -/
def placeholders (n : Nat) : List Nat :=
  Join (List.replicate n (bytes "?")) (bytes ",")

/-- The `CALL` statement of a wrapper, as a quoted Go string literal, followed by
the bound arguments: `, ` and the transformed name for every parameter, in
order. -/
def callWithArgs (T : CaseRanges) (proc : ProcedureInfo) : List Nat :=
  bytes "\"CALL " ++ proc.Name ++ bytes "(" ++ placeholders proc.Parameters.length ++
    bytes ")\"" ++ (proc.Parameters.map fun p => bytes ", " ++ toCamelCase T p).flatten

/-- The argument list of both wrappers: the context argument followed by one
untyped argument per parameter, in order. -/
def argumentList (T : CaseRanges) (proc : ProcedureInfo) : List Nat :=
  bytes "ctx context.Context" ++
    (proc.Parameters.map fun p =>
      bytes ", " ++ toCamelCase T p ++ bytes " interface\x7b\x7d").flatten

/-- The per-database outcomes of a batch run: the step applied to every config
in list order, each on the state left by the previous one. -/
def outcomes {σ : Type} (step : σ → DatabaseConfig → σ × Option (List Nat)) :
    σ → List DatabaseConfig → List (DatabaseConfig × Option (List Nat))
  | _, [] => []
  | w, c :: cs => (c, (step w c).2) :: outcomes step (step w c).1 cs

/-- The lines `main` writes for one config with a given outcome. -/
def report (r : DatabaseConfig × Option (List Nat)) : List Output :=
  [Output.stdout (bytes "\n正在生成数据库 " ++ r.1.Name ++ bytes " 的存储过程包装方法...\n"),
   match r.2 with
   | some err => Output.logger (bytes "生成数据库 " ++ r.1.Name ++ bytes " 的存储过程失败: " ++ err)
   | none => Output.stdout (bytes "数据库 " ++ r.1.Name ++ bytes " 的存储过程包装方法生成完成！\n")]

/-- The fixed text that closes the second wrapper, after its `Rows()` call. -/
def resultLoopText : List Nat :=
  bytes "\tif err != nil \x7b\n" ++ bytes "\t\treturn nil, err\n" ++ bytes "\t\x7d\n" ++
  bytes "\tdefer rows.Close()\n\n" ++ bytes "\tcolumns, err := rows.Columns()\n" ++
  bytes "\tif err != nil \x7b\n" ++ bytes "\t\treturn nil, err\n" ++ bytes "\t\x7d\n\n" ++
  bytes "\tfor rows.Next() \x7b\n" ++
  bytes "\t\tvalues := make([]interface\x7b\x7d, len(columns))\n" ++
  bytes "\t\tscanArgs := make([]interface\x7b\x7d, len(values))\n" ++
  bytes "\t\tfor i := range values \x7b\n" ++ bytes "\t\t\tscanArgs[i] = &values[i]\n" ++
  bytes "\t\t\x7d\n\n" ++ bytes "\t\terr = rows.Scan(scanArgs...)\n" ++
  bytes "\t\tif err != nil \x7b\n" ++ bytes "\t\t\treturn nil, err\n" ++ bytes "\t\t\x7d\n\n" ++
  bytes "\t\trow := make(map[string]interface\x7b\x7d)\n" ++
  bytes "\t\tfor i, col := range columns \x7b\n" ++ bytes "\t\t\trow[col] = values[i]\n" ++
  bytes "\t\t\x7d\n" ++ bytes "\t\tresults = append(results, row)\n" ++ bytes "\t\x7d\n\n" ++
  bytes "\treturn results, nil\n" ++ bytes "\x7d\n\n"

/-- The names extracted from the text between the parentheses. -/
def clauseNames (paramStr : List Nat) : List (List Nat) :=
  let paramStr := TrimSpace paramStr
  if paramStr = [] then [] else (Split paramStr 0x2C).flatMap partParams

/-- The part of `parseProcedureParameters` that follows the keyword search, as
a function of `definition[start:]`. -/
def parseTail (afterKeyword : List Nat) : List (List Nat) :=
  match Index afterKeyword (bytes "(") with
  | none => []
  | some leftParen =>
    match Index (afterKeyword.drop leftParen) (bytes ")") with
    | none => []
    | some rightParen =>
      clauseNames ((afterKeyword.take (leftParen + rightParen)).drop (leftParen + 1))

/-- What a clause with the given words contributes: the `len(words) >= 2`
test followed by the inner loop. -/
def wordsName (words : List (List Nat)) : List (List Nat) :=
  if words.length ≥ 2 then (scanWords 0 words).toList else []

/-- The word is one of the direction keywords `IN`, `OUT` and `INOUT`, in any
letter case. -/
def isDirection (word : List Nat) : Bool :=
  EqualFold word (bytes "IN") || EqualFold word (bytes "OUT") || EqualFold word (bytes "INOUT")

/-- The text `clause` is a parameter clause `<direction> <name> [<type tokens>]`
that declares `name`: optional white space, a direction keyword, white space,
the name (a non-empty word that is not a direction keyword), and then either
nothing or white space followed by anything; the clause contains neither `,`
nor `)`. -/
def WellFormedClause (clause name : List Nat) : Prop :=
  ∃ lead dir gap rest : List Nat,
    clause = lead ++ dir ++ gap ++ name ++ rest ∧
    (∀ c ∈ lead, asciiSpace c = true) ∧
    isDirection dir = true ∧
    gap ≠ [] ∧ (∀ c ∈ gap, asciiSpace c = true) ∧
    name ≠ [] ∧ (∀ c ∈ name, asciiSpace c = false) ∧ isDirection name = false ∧
    (rest = [] ∨ ∃ c r, rest = c :: r ∧ asciiSpace c = true) ∧
    (∀ c ∈ clause, c ≠ 0x2C ∧ c ≠ 0x29)

/-- The text `c` is the UTF-8 encoding of one white-space rune. -/
def IsSpaceChunk (c : List Nat) : Prop :=
  c ≠ [] ∧ (DecodeRuneInString c).2 = c.length ∧ IsSpace (DecodeRuneInString c).1 = true

/-- A run of encoded white-space runes. -/
inductive SpaceRun : List Nat → Prop where
  | nil : SpaceRun []
  | cons (c rest : List Nat) : IsSpaceChunk c → SpaceRun rest → SpaceRun (c ++ rest)

/-! ## Lemmas on joining and repeating -/

theorem Join_cons_cons (e f : List Nat) (es : List (List Nat)) (sep : List Nat) :
    Join (e :: f :: es) sep = e ++ sep ++ Join (f :: es) sep := by
  simp [Join]

theorem sep_append_Join (sep : List Nat) (l : List (List Nat)) (h : l ≠ []) :
    sep ++ Join l sep = (l.map fun e => sep ++ e).flatten := by
  induction l with
  | nil => exact absurd rfl h
  | cons e es ih =>
    cases es with
    | nil => simp [Join]
    | cons f fs =>
      have := ih (by simp)
      rw [Join_cons_cons, List.map_cons, List.flatten_cons, ← this]
      simp [List.append_assoc]

theorem Join_ne_nil (e : List Nat) (es : List (List Nat)) (sep : List Nat) (h : e ≠ []) :
    Join (e :: es) sep ≠ [] := by
  cases es with
  | nil => simpa [Join] using h
  | cons f fs => rw [Join_cons_cons]; simp [h]

theorem Repeat_placeholders (n : Nat) :
    Repeat (bytes "?,") n ++ bytes "?" = placeholders (n + 1) := by
  induction n with
  | zero => rfl
  | succ k ih =>
    have h : bytes "?," = bytes "?" ++ bytes "," := by decide
    rw [Repeat, List.append_assoc, ih, placeholders, placeholders, List.replicate_succ,
      List.replicate_succ, List.replicate_succ, Join_cons_cons _ _ _ (bytes ","), h,
      ← List.replicate_succ]

theorem count_placeholders (n : Nat) :
    (placeholders n).count 0x3F = n ∧ (placeholders n).count 0x2C = n - 1 := by
  induction n with
  | zero => exact ⟨rfl, rfl⟩
  | succ k ih =>
    cases k with
    | zero => exact ⟨rfl, rfl⟩
    | succ j =>
      have h : placeholders (j + 1 + 1) = bytes "?" ++ bytes "," ++ placeholders (j + 1) := by
        rw [placeholders, placeholders, List.replicate_succ, List.replicate_succ, Join_cons_cons]
      have h1 : bytes "?" = [0x3F] := by decide
      have h2 : bytes "," = [0x2C] := by decide
      rw [h, h1, h2]
      simp only [List.count_append, ih.1, ih.2]
      constructor
      · simp; omega
      · simp; omega

/-! ## Lemmas on the emitter -/

theorem paramStr_eq (T : CaseRanges) (ps : List (List Nat)) :
    (if Join (ps.map fun param => toCamelCase T param ++ bytes " interface\x7b\x7d") (bytes ", ") ≠ []
      then bytes ", " ++
        Join (ps.map fun param => toCamelCase T param ++ bytes " interface\x7b\x7d") (bytes ", ")
      else Join (ps.map fun param => toCamelCase T param ++ bytes " interface\x7b\x7d") (bytes ", "))
    = (ps.map fun p => bytes ", " ++ toCamelCase T p ++ bytes " interface\x7b\x7d").flatten := by
  cases ps with
  | nil => simp [Join]
  | cons q qs =>
    have hne : Join ((q :: qs).map fun param => toCamelCase T param ++ bytes " interface\x7b\x7d")
        (bytes ", ") ≠ [] := by
      rw [List.map_cons]
      apply Join_ne_nil
      have : bytes " interface\x7b\x7d" ≠ [] := by decide
      simp [this]
    rw [if_pos hne, sep_append_Join _ _ (by simp)]
    simp [List.map_map, Function.comp_def, List.append_assoc]

/-- The text of the two wrappers of one procedure, cut at the places the
statements about it refer to: the two signatures and the two call forms. -/
theorem generateProcedureMethod_shape (T : CaseRanges) (proc : ProcedureInfo) :
    generateProcedureMethod T [] proc =
      (bytes "// " ++ toCamelCase T proc.Name ++ bytes " 调用存储过程 " ++ proc.Name ++ bytes "\n") ++
      (bytes "func (pc *ProcedureCaller) " ++ toCamelCase T proc.Name ++ bytes "(" ++
        argumentList T proc ++ bytes ") error \x7b\n") ++
      bytes "\treturn " ++
      (bytes "pc.db.WithContext(ctx).Exec(" ++ callWithArgs T proc ++ bytes ").Error") ++
      bytes "\n" ++ bytes "\x7d\n\n" ++
      (bytes "// " ++ (toCamelCase T proc.Name ++ bytes "WithResult") ++ bytes " 调用存储过程 " ++
        proc.Name ++ bytes " 并返回结果\n") ++
      (bytes "func (pc *ProcedureCaller) " ++ (toCamelCase T proc.Name ++ bytes "WithResult") ++
        bytes "(" ++ argumentList T proc ++
        bytes ") ([]map[string]interface\x7b\x7d, error) \x7b\n") ++
      bytes "\tvar results []map[string]interface\x7b\x7d\n" ++ bytes "\trows, err := " ++
      (bytes "pc.db.WithContext(ctx).Raw(" ++ callWithArgs T proc ++ bytes ").Rows()") ++
      bytes "\n" ++ resultLoopText := by
  have e1 : bytes "(ctx context.Context" = bytes "(" ++ bytes "ctx context.Context" := by decide
  have e2 : bytes "\treturn pc.db.WithContext(ctx).Exec(\"CALL " =
      bytes "\treturn " ++ (bytes "pc.db.WithContext(ctx).Exec(" ++ bytes "\"CALL ") := by decide
  have e3 : bytes ")\", " = bytes ")\"" ++ bytes ", " := by decide
  have e4 : bytes ").Error\n" = bytes ").Error" ++ bytes "\n" := by decide
  have e5 : bytes "()\").Error\n" =
      bytes "(" ++ (bytes ")\"" ++ (bytes ").Error" ++ bytes "\n")) := by decide
  have e6 : bytes "\trows, err := pc.db.WithContext(ctx).Raw(\"CALL " =
      bytes "\trows, err := " ++ (bytes "pc.db.WithContext(ctx).Raw(" ++ bytes "\"CALL ") := by
    decide
  have e7 : bytes ").Rows()\n" = bytes ").Rows()" ++ bytes "\n" := by decide
  have e8 : bytes "()\").Rows()\n" =
      bytes "(" ++ (bytes ")\"" ++ (bytes ").Rows()" ++ bytes "\n")) := by decide
  unfold generateProcedureMethod
  simp only [paramStr_eq]
  cases hp : proc.Parameters with
  | nil =>
    simp only [callWithArgs, argumentList, resultLoopText, hp, placeholders, List.length_nil,
      List.map_nil, List.flatten_nil, List.replicate_zero, Join, gt_iff_lt, lt_self_iff_false,
      if_false, e1, e2, e5, e6, e8, List.append_assoc, List.nil_append, List.append_nil]
  | cons q qs =>
    have hlen : (q :: qs).length > 0 := by simp
    have hj : bytes ", " ++ Join ((q :: qs).map fun param => toCamelCase T param) (bytes ", ") =
        ((q :: qs).map fun p => bytes ", " ++ toCamelCase T p).flatten := by
      rw [sep_append_Join _ _ (by simp), List.map_map]
      rfl
    have hr : Repeat (bytes "?,") ((q :: qs).length - 1) ++ bytes "?" =
        placeholders (q :: qs).length := by
      rw [List.length_cons, Nat.add_sub_cancel, Repeat_placeholders]
    simp only [callWithArgs, argumentList, resultLoopText, hp, hlen, if_true, hr, e1, e2, e3,
      e4, e6, e7, List.append_assoc, List.nil_append, hj]

theorem generateProcedureMethod_append (T : CaseRanges) (code : List Nat) (proc : ProcedureInfo) :
    generateProcedureMethod T code proc = code ++ generateProcedureMethod T [] proc := by
  unfold generateProcedureMethod
  simp only []
  split_ifs <;> simp only [List.append_assoc, List.nil_append]

theorem foldl_generateProcedureMethod (T : CaseRanges) (ps : List ProcedureInfo) (code : List Nat) :
    ps.foldl (fun code proc => generateProcedureMethod T code proc) code =
      code ++ (ps.map (generateProcedureMethod T [])).flatten := by
  induction ps generalizing code with
  | nil => simp
  | cons p ps ih =>
    rw [List.foldl_cons, ih, generateProcedureMethod_append]
    simp [List.append_assoc]

theorem writeHelpers_append (code : List Nat) : writeHelpers code = code ++ writeHelpers [] := by
  unfold writeHelpers
  simp only [List.append_assoc, List.nil_append]

theorem mainLoop_eq {σ : Type} (gen : σ → DatabaseConfig → σ × Option (List Nat))
    (cfgs : List DatabaseConfig) (w : σ) (out : List Output) :
    mainLoop gen w out cfgs =
      (cfgs.foldl (fun w c => (gen w c).1) w, out ++ (outcomes gen w cfgs).flatMap report) := by
  induction cfgs generalizing w out with
  | nil => simp [mainLoop, outcomes]
  | cons c cs ih =>
    rw [mainLoop]
    cases h : (gen w c).2 with
    | none => simp [ih, outcomes, report, h, List.append_assoc]
    | some err => simp [ih, outcomes, report, h, List.append_assoc]

theorem outcomes_fst {σ : Type} (gen : σ → DatabaseConfig → σ × Option (List Nat))
    (cfgs : List DatabaseConfig) (w : σ) : (outcomes gen w cfgs).map Prod.fst = cfgs := by
  induction cfgs generalizing w with
  | nil => rfl
  | cons c cs ih => simp [outcomes, ih]

theorem foldl_record (f : Nat → DatabaseConfig → Option (List Nat)) (cfgs : List DatabaseConfig)
    (calls : List DatabaseConfig) :
    cfgs.foldl (fun (w : List DatabaseConfig) c =>
      ((fun (calls : List DatabaseConfig) c => (calls ++ [c], f calls.length c)) w c).1) calls =
      calls ++ cfgs := by
  induction cfgs generalizing calls with
  | nil => simp
  | cons c cs ih => simp [ih]

/-! ## Lemmas on searching, trimming and splitting -/

theorem indexFrom_some (sub : List Nat) (s : List Nat) (k i : Nat)
    (h : indexFrom sub s k = some i) : ∃ u v, s = u ++ sub ++ v ∧ i = k + u.length := by
  induction s generalizing k with
  | nil =>
    simp only [indexFrom] at h
    split_ifs at h with hs
    refine ⟨[], [], by simp [hs], ?_⟩
    simp at h; simp [h]
  | cons c cs ih =>
    simp only [indexFrom] at h
    split_ifs at h with hp
    · rw [List.isPrefixOf_iff_prefix] at hp
      obtain ⟨v, hv⟩ := hp
      refine ⟨[], v, by simp [hv], ?_⟩
      simp at h; simp [h]
    · obtain ⟨u, v, huv, hi⟩ := ih (k + 1) h
      refine ⟨c :: u, v, by simp [huv], ?_⟩
      simp [hi]; omega

theorem Index_some (s sub : List Nat) (i : Nat) (h : Index s sub = some i) :
    ∃ u v, s = u ++ sub ++ v ∧ i = u.length := by
  obtain ⟨u, v, h1, h2⟩ := indexFrom_some sub s 0 i h
  exact ⟨u, v, h1, by simpa using h2⟩

theorem indexFrom_single (c : Nat) (u v : List Nat) (k : Nat) (h : c ∉ u) :
    indexFrom [c] (u ++ c :: v) k = some (k + u.length) := by
  induction u generalizing k with
  | nil => simp [indexFrom, List.isPrefixOf]
  | cons x xs ih =>
    have hx : c ≠ x := fun e => h (by simp [e])
    have hxs : c ∉ xs := fun e => h (by simp [e])
    have hp : List.isPrefixOf [c] (x :: (xs ++ c :: v)) = false := by
      simp [List.isPrefixOf, hx]
    rw [List.cons_append, indexFrom, hp, if_neg (by simp), ih (k + 1) hxs]
    simp; omega

theorem Index_single (c : Nat) (u v : List Nat) (h : c ∉ u) :
    Index (u ++ c :: v) [c] = some u.length := by
  rw [Index, indexFrom_single c u v 0 h]; simp

theorem indexFrom_single_none (c : Nat) (s : List Nat) (k : Nat) (h : c ∉ s) :
    indexFrom [c] s k = none := by
  induction s generalizing k with
  | nil => simp [indexFrom]
  | cons x xs ih =>
    have hx : c ≠ x := fun e => h (by simp [e])
    have hxs : c ∉ xs := fun e => h (by simp [e])
    have hp : List.isPrefixOf [c] (x :: xs) = false := by
      simp [List.isPrefixOf, hx]
    rw [indexFrom, hp, if_neg (by simp)]
    exact ih _ hxs

theorem Index_single_none (c : Nat) (s : List Nat) (h : c ∉ s) : Index s [c] = none :=
  indexFrom_single_none c s 0 h

theorem bytes_lparen : bytes "(" = [0x28] := by decide
theorem bytes_rparen : bytes ")" = [0x29] := by decide

/-- Once the keyword has been found at an offset inside the text, the result is
`parseTail` of the text from that offset on. -/
theorem parse_of_index (T : CaseRanges) (d : List Nat) (start : Nat)
    (h : Index (ToUpper T d) (bytes "PROCEDURE") = some start) (hle : start ≤ d.length) :
    parseProcedureParameters T d = some (parseTail (d.drop start)) := by
  have hne : d ≠ [] := by
    rintro rfl
    have : Index (ToUpper T []) (bytes "PROCEDURE") = none := rfl
    rw [this] at h; cases h
  unfold parseProcedureParameters parseTail
  simp only [hne, if_false, h, sliceFrom, hle, if_true]
  cases h1 : Index (d.drop start) (bytes "(") with
  | none => rfl
  | some lp =>
    obtain ⟨u, v, huv, hlp⟩ := Index_some _ _ _ h1
    have hl1 : start + lp ≤ d.length := by
      have := congrArg List.length huv
      simp [bytes_lparen] at this
      omega
    have hdd : d.drop (start + lp) = (d.drop start).drop lp := by simp
    simp only [hl1, if_true, hdd]
    cases h2 : Index ((d.drop start).drop lp) (bytes ")") with
    | none => rfl
    | some rp =>
      obtain ⟨u2, v2, huv2, hrp⟩ := Index_some _ _ _ h2
      have hdrop : (d.drop start).drop lp = bytes "(" ++ v := by
        rw [huv, hlp]; simp
      have hu2 : u2 ≠ [] := by
        rintro rfl
        rw [hdrop, bytes_lparen, bytes_rparen] at huv2
        simp at huv2
      have hrp1 : 1 ≤ rp := by
        rw [hrp]; exact List.length_pos.mpr hu2
      have hl2 : start + lp + rp ≤ d.length := by
        have := congrArg List.length huv2
        simp [bytes_rparen] at this
        omega
      have hsl : List.drop (start + lp + 1) (List.take (start + lp + rp) d) =
          List.drop (lp + 1) (List.take (lp + rp) (List.drop start d)) := by
        rw [List.take_drop, List.drop_drop]
        simp only [Nat.add_assoc]
      have hs : slice d (start + lp + 1) (start + lp + rp) =
          some (List.drop (lp + 1) (List.take (lp + rp) (List.drop start d))) := by
        rw [slice, if_pos ⟨by omega, hl2⟩, hsl]
      simp only [hs, clauseNames]
      split_ifs <;> rfl

theorem parseTail_paren (head body post : List Nat) (h1 : 0x28 ∉ head) (h2 : 0x29 ∉ body) :
    parseTail (head ++ bytes "(" ++ body ++ bytes ")" ++ post) = clauseNames body := by
  have e1 : head ++ bytes "(" ++ body ++ bytes ")" ++ post =
      head ++ 0x28 :: (body ++ 0x29 :: post) := by
    simp [bytes_lparen, bytes_rparen]
  have i1 : Index (head ++ 0x28 :: (body ++ 0x29 :: post)) (bytes "(") = some head.length := by
    rw [bytes_lparen]; exact Index_single _ _ _ h1
  have hd : (head ++ 0x28 :: (body ++ 0x29 :: post)).drop head.length =
      (0x28 :: body) ++ 0x29 :: post := by simp
  have i2 : Index ((0x28 :: body) ++ 0x29 :: post) (bytes ")") = some (body.length + 1) := by
    rw [bytes_rparen]
    have := Index_single 0x29 (0x28 :: body) post (by simp [h2])
    simpa using this
  have ht : ((head ++ 0x28 :: (body ++ 0x29 :: post)).take (head.length + (body.length + 1))).drop
      (head.length + 1) = body := by
    have e : head ++ 0x28 :: (body ++ 0x29 :: post) = (head ++ [0x28] ++ body) ++ 0x29 :: post := by
      simp
    have hl : (head ++ [0x28] ++ body).length = head.length + (body.length + 1) := by
      simp
    rw [e, List.take_left' hl]
    have hl2 : (head ++ [0x28]).length = head.length + 1 := by simp
    rw [List.drop_left' hl2]
  rw [e1, parseTail]
  simp only [i1, hd, i2, ht]

theorem isASCII_iff (s : List Nat) : isASCII s = true ↔ ∀ c ∈ s, c < 0x80 := by
  simp [isASCII]

theorem isASCII_append (s t : List Nat) : isASCII (s ++ t) = (isASCII s && isASCII t) := by
  simp [isASCII]

theorem ToUpper_ascii (T : CaseRanges) (s : List Nat) (h : isASCII s = true) :
    ToUpper T s = s.map upperByte := by
  simp [ToUpper, h]

theorem Fields_ascii (s : List Nat) (h : isASCII s = true) : Fields s = fieldsASCII [] s := by
  simp [Fields, h]

theorem TrimSpace_ascii (s : List Nat) (h : isASCII s = true) :
    TrimSpace s = ((s.dropWhile asciiSpace).reverse.dropWhile asciiSpace).reverse := by
  rw [isASCII_iff] at h
  unfold TrimSpace
  simp only []
  cases hf : s.dropWhile asciiSpace with
  | nil => simp
  | cons c cs =>
    have hsub : ∀ x ∈ c :: cs, x < 0x80 := by
      intro x hx
      apply h
      have : x ∈ s.dropWhile asciiSpace := by rw [hf]; exact hx
      exact (List.dropWhile_sublist _).subset this
    have hc : ¬ c ≥ RuneSelf := by
      have := hsub c (by simp)
      simp [RuneSelf]; omega
    simp only [hc, if_false]
    cases hb : (c :: cs).reverse.dropWhile asciiSpace with
    | nil => simp
    | cons e es =>
      have he : ¬ e ≥ RuneSelf := by
        have h1 : e ∈ (c :: cs).reverse.dropWhile asciiSpace := by rw [hb]; simp
        have h2 : e ∈ (c :: cs).reverse := (List.dropWhile_sublist _).subset h1
        have h3 : e ∈ c :: cs := List.mem_reverse.mp h2
        have := hsub e h3
        simp [RuneSelf]; omega
      simp only [he, if_false]

theorem fieldsASCII_spaces (cur w : List Nat) (hw : ∀ x ∈ w, asciiSpace x = true) :
    fieldsASCII cur w = fieldsASCII cur [] := by
  induction w generalizing cur with
  | nil => rfl
  | cons x xs ih =>
    have hx : asciiSpace x = true := hw x (by simp)
    have hxs : ∀ y ∈ xs, asciiSpace y = true := fun y hy => hw y (by simp [hy])
    simp only [fieldsASCII, hx, if_true, ih [] hxs]

theorem fieldsASCII_append_spaces (cur s w : List Nat) (hw : ∀ x ∈ w, asciiSpace x = true) :
    fieldsASCII cur (s ++ w) = fieldsASCII cur s := by
  induction s generalizing cur with
  | nil => simpa using fieldsASCII_spaces cur w hw
  | cons x xs ih =>
    rw [List.cons_append, fieldsASCII, fieldsASCII]
    simp only [ih]

theorem fieldsASCII_dropWhile (s : List Nat) :
    fieldsASCII [] (s.dropWhile asciiSpace) = fieldsASCII [] s := by
  induction s with
  | nil => rfl
  | cons x xs ih =>
    by_cases hx : asciiSpace x = true
    · rw [List.dropWhile_cons_of_pos hx, ih, fieldsASCII, if_pos hx]; simp
    · rw [List.dropWhile_cons_of_neg hx]

theorem rtrim_decomp (s : List Nat) :
    ∃ w, (∀ x ∈ w, asciiSpace x = true) ∧ s = (s.reverse.dropWhile asciiSpace).reverse ++ w := by
  refine ⟨(s.reverse.takeWhile asciiSpace).reverse, ?_, ?_⟩
  · intro x hx
    exact List.mem_takeWhile_imp (List.mem_reverse.mp hx)
  · rw [← List.reverse_append, List.takeWhile_append_dropWhile, List.reverse_reverse]

theorem fieldsASCII_rtrim (s : List Nat) :
    fieldsASCII [] (s.reverse.dropWhile asciiSpace).reverse = fieldsASCII [] s := by
  obtain ⟨w, hw, hs⟩ := rtrim_decomp s
  conv_rhs => rw [hs]
  rw [fieldsASCII_append_spaces _ _ _ hw]

theorem Split_ne_nil (s : List Nat) (c : Nat) : Split s c ≠ [] := by
  cases s with
  | nil => simp [Split]
  | cons x xs =>
    rw [Split]
    split_ifs
    · simp
    · split <;> simp

theorem Split_cons_sep (c : Nat) (xs : List Nat) : Split (c :: xs) c = [] :: Split xs c := by
  rw [Split]; simp

theorem Split_cons_other (x c : Nat) (xs p : List Nat) (ps : List (List Nat)) (hx : x ≠ c)
    (h : Split xs c = p :: ps) : Split (x :: xs) c = (x :: p) :: ps := by
  rw [Split, if_neg hx, h]

theorem Split_of_not_mem (s : List Nat) (c : Nat) (h : c ∉ s) : Split s c = [s] := by
  induction s with
  | nil => rfl
  | cons x xs ih =>
    have hx : x ≠ c := fun e => h (by simp [e])
    have hxs : c ∉ xs := fun e => h (by simp [e])
    exact Split_cons_other x c xs xs [] hx (ih hxs)

theorem Split_append_sep (seg rest : List Nat) (c : Nat) (h : c ∉ seg) :
    Split (seg ++ c :: rest) c = seg :: Split rest c := by
  induction seg with
  | nil => exact Split_cons_sep c rest
  | cons x xs ih =>
    have hx : x ≠ c := fun e => h (by simp [e])
    have hxs : c ∉ xs := fun e => h (by simp [e])
    exact Split_cons_other x c _ _ _ hx (ih hxs)

theorem Split_Join (segs : List (List Nat)) (c : Nat) (h : ∀ seg ∈ segs, c ∉ seg)
    (hne : segs ≠ []) : Split (Join segs [c]) c = segs := by
  induction segs with
  | nil => exact absurd rfl hne
  | cons e es ih =>
    cases es with
    | nil => simpa [Join] using Split_of_not_mem e c (h e (by simp))
    | cons f fs =>
      rw [Join_cons_cons, List.append_assoc, List.singleton_append,
        Split_append_sep _ _ _ (h e (by simp)), ih (fun s hs => h s (by simp [hs])) (by simp)]

theorem Split_append_right (r w : List Nat) (c : Nat) (hw : c ∉ w) :
    ∃ L p, Split r c = L ++ [p] ∧ Split (r ++ w) c = L ++ [p ++ w] := by
  induction r with
  | nil => exact ⟨[], [], rfl, by simpa using Split_of_not_mem w c hw⟩
  | cons x xs ih =>
    obtain ⟨L, p, h1, h2⟩ := ih
    by_cases hx : x = c
    · subst hx
      exact ⟨[] :: L, p, by rw [Split_cons_sep, h1]; rfl, by
        rw [List.cons_append, Split_cons_sep, h2]; rfl⟩
    · cases L with
      | nil =>
        refine ⟨[], x :: p, ?_, ?_⟩
        · exact Split_cons_other x c xs p [] hx (by simpa using h1)
        · exact Split_cons_other x c _ (p ++ w) [] hx (by simpa using h2)
      | cons q qs =>
        refine ⟨(x :: q) :: qs, p, ?_, ?_⟩
        · exact Split_cons_other x c xs q (qs ++ [p]) hx (by simpa using h1)
        · exact Split_cons_other x c _ q (qs ++ [p ++ w]) hx (by simpa using h2)

theorem Split_dropWhile (s : List Nat) (c : Nat) (hc : asciiSpace c = false) :
    ∃ p ps, Split s c = p :: ps ∧
      Split (s.dropWhile asciiSpace) c = p.dropWhile asciiSpace :: ps := by
  induction s with
  | nil => exact ⟨[], [], rfl, rfl⟩
  | cons x xs ih =>
    obtain ⟨p, ps, h1, h2⟩ := ih
    by_cases hx : asciiSpace x = true
    · have hxc : x ≠ c := by
        rintro rfl
        rw [hc] at hx; cases hx
      refine ⟨x :: p, ps, Split_cons_other x c xs p ps hxc h1, ?_⟩
      rw [List.dropWhile_cons_of_pos hx, List.dropWhile_cons_of_pos hx, h2]
    · rw [List.dropWhile_cons_of_neg hx]
      by_cases hxc : x = c
      · subst hxc
        exact ⟨[], Split xs x, Split_cons_sep x xs, by rw [Split_cons_sep]; rfl⟩
      · refine ⟨x :: p, ps, Split_cons_other x c xs p ps hxc h1, ?_⟩
        rw [List.dropWhile_cons_of_neg hx]
        exact Split_cons_other x c xs p ps hxc h1

theorem mem_of_mem_Split (s : List Nat) (c : Nat) (part : List Nat) (hp : part ∈ Split s c)
    (x : Nat) (hx : x ∈ part) : x ∈ s := by
  induction s generalizing part with
  | nil =>
    simp [Split] at hp
    subst hp
    cases hx
  | cons y ys ih =>
    by_cases hy : y = c
    · subst hy
      rw [Split_cons_sep] at hp
      rcases List.mem_cons.mp hp with h | h
      · subst h; cases hx
      · exact List.mem_cons_of_mem _ (ih part h hx)
    · cases hs : Split ys c with
      | nil => exact absurd hs (Split_ne_nil ys c)
      | cons p ps =>
        rw [Split_cons_other y c ys p ps hy hs] at hp
        rcases List.mem_cons.mp hp with h | h
        · subst h
          rcases List.mem_cons.mp hx with h' | h'
          · subst h'; simp
          · exact List.mem_cons_of_mem _ (ih p (by rw [hs]; simp) h')
        · exact List.mem_cons_of_mem _ (ih part (by rw [hs]; simp [h]) hx)

theorem partParams_ascii (p : List Nat) (h : isASCII p = true) :
    partParams p = wordsName (fieldsASCII [] p) := by
  have ht := TrimSpace_ascii p h
  have hta : isASCII (TrimSpace p) = true := by
    rw [isASCII_iff] at h ⊢
    intro c hc
    rw [ht] at hc
    have h1 := (List.dropWhile_sublist _).subset (List.mem_reverse.mp hc)
    exact h c ((List.dropWhile_sublist _).subset (List.mem_reverse.mp h1))
  have hf : fieldsASCII [] (TrimSpace p) = fieldsASCII [] p := by
    rw [ht, fieldsASCII_rtrim, fieldsASCII_dropWhile]
  unfold partParams wordsName
  simp only []
  by_cases he : TrimSpace p = []
  · have : fieldsASCII [] p = [] := by rw [← hf, he]; rfl
    simp [he, this]
  · simp only [ne_eq, he, not_false_eq_true, if_true, Fields_ascii _ hta, hf]

theorem clauseNames_ascii (body : List Nat) (h : isASCII body = true) :
    clauseNames body = (Split body 0x2C).flatMap fun p => wordsName (fieldsASCII [] p) := by
  have ht := TrimSpace_ascii body h
  obtain ⟨w, hw, hdec⟩ := rtrim_decomp (body.dropWhile asciiSpace)
  rw [← ht] at hdec
  have hwc : (0x2C : Nat) ∉ w := by
    intro hm
    have := hw _ hm
    revert this; decide
  have hta : ∀ c ∈ TrimSpace body, c < 0x80 := by
    rw [isASCII_iff] at h
    intro c hc
    apply h
    have : c ∈ body.dropWhile asciiSpace := by rw [hdec]; simp [hc]
    exact (List.dropWhile_sublist _).subset this
  -- the three texts give the same names
  have e1 : (Split (TrimSpace body) 0x2C).flatMap partParams =
      (Split (TrimSpace body) 0x2C).flatMap fun p => wordsName (fieldsASCII [] p) := by
    rw [List.flatMap_def, List.flatMap_def]
    congr 1
    apply List.map_congr_left
    intro part hpart
    apply partParams_ascii
    rw [isASCII_iff]
    intro c hc
    exact hta c (mem_of_mem_Split _ _ _ hpart c hc)
  have e2 : ((Split (TrimSpace body) 0x2C).flatMap fun p => wordsName (fieldsASCII [] p)) =
      (Split (body.dropWhile asciiSpace) 0x2C).flatMap fun p => wordsName (fieldsASCII [] p) := by
    obtain ⟨L, p, h1, h2⟩ := Split_append_right (TrimSpace body) w 0x2C hwc
    rw [hdec, h1, h2]
    simp [List.flatMap_append, fieldsASCII_append_spaces _ _ _ hw]
  have e3 : ((Split (body.dropWhile asciiSpace) 0x2C).flatMap
        fun p => wordsName (fieldsASCII [] p)) =
      (Split body 0x2C).flatMap fun p => wordsName (fieldsASCII [] p) := by
    obtain ⟨p, ps, h1, h2⟩ := Split_dropWhile body 0x2C (by decide)
    rw [h1, h2]
    simp [List.flatMap_cons, fieldsASCII_dropWhile]
  unfold clauseNames
  simp only []
  by_cases he : TrimSpace body = []
  · rw [if_pos he, ← e3, ← e2, he]
    rfl
  · rw [if_neg he, e1, e2, e3]

theorem EqualFold_iff (s t : List Nat) :
    EqualFold s t = true ↔ s.map upperByte = t.map upperByte := by
  induction s generalizing t with
  | nil => cases t <;> simp [EqualFold]
  | cons a s ih => cases t <;> simp [EqualFold, ih]

theorem upperByte_not_space (c : Nat) (h : asciiSpace c = true) :
    upperByte c ∉ bytes "INOUT" := by
  have hc : ((((c = 0x09 ∨ c = 0x0A) ∨ c = 0x0B) ∨ c = 0x0C) ∨ c = 0x0D) ∨ c = 0x20 := by
    simpa [asciiSpace] using h
  rcases hc with ((((h | h) | h) | h) | h) | h <;> subst h <;> decide

theorem isDirection_no_space (dir : List Nat) (h : isDirection dir = true) :
    dir ≠ [] ∧ ∀ c ∈ dir, asciiSpace c = false := by
  have hsub : ∀ x ∈ dir.map upperByte, x ∈ bytes "INOUT" := by
    simp only [isDirection, Bool.or_eq_true, EqualFold_iff] at h
    rcases h with (h | h) | h <;> rw [h] <;> decide
  constructor
  · rintro rfl
    revert h; decide
  · intro c hc
    by_contra hsp
    have hsp' : asciiSpace c = true := by simpa using hsp
    exact upperByte_not_space c hsp' (hsub _ (List.mem_map_of_mem _ hc))

theorem notDirection_eq (w : List Nat) : notDirection w = !isDirection w := by
  simp [notDirection, isDirection, Bool.not_or]

theorem fieldsASCII_lead (lead s : List Nat) (h : ∀ c ∈ lead, asciiSpace c = true) :
    fieldsASCII [] (lead ++ s) = fieldsASCII [] s := by
  induction lead with
  | nil => rfl
  | cons x xs ih =>
    have hx : asciiSpace x = true := h x (by simp)
    rw [List.cons_append, fieldsASCII]
    simp only [hx, if_true]
    exact ih fun c hc => h c (by simp [hc])

theorem fieldsASCII_word (cur tok s : List Nat) (h : ∀ c ∈ tok, asciiSpace c = false) :
    fieldsASCII cur (tok ++ s) = fieldsASCII (cur ++ tok) s := by
  induction tok generalizing cur with
  | nil => simp
  | cons x xs ih =>
    have hx : asciiSpace x = false := h x (by simp)
    rw [List.cons_append, fieldsASCII]
    simp only [hx, Bool.false_eq_true, if_false]
    rw [ih _ fun c hc => h c (by simp [hc])]
    simp

theorem fieldsASCII_gap (cur gap s : List Nat) (hcur : cur ≠ []) (hg : gap ≠ [])
    (h : ∀ c ∈ gap, asciiSpace c = true) :
    fieldsASCII cur (gap ++ s) = cur :: fieldsASCII [] s := by
  cases gap with
  | nil => exact absurd rfl hg
  | cons g gs =>
    have hx : asciiSpace g = true := h g (by simp)
    rw [List.cons_append, fieldsASCII]
    simp only [hx, if_true, hcur, if_false]
    rw [fieldsASCII_lead gs s fun c hc => h c (by simp [hc])]

theorem fields_of_clause (clause name : List Nat) (h : WellFormedClause clause name) :
    ∃ dir more, isDirection dir = true ∧ fieldsASCII [] clause = dir :: name :: more := by
  obtain ⟨lead, dir, gap, rest, hcl, hlead, hdir, hgne, hgap, hnne, hname, -, hrest, -⟩ := h
  obtain ⟨hdne, hdsp⟩ := isDirection_no_space dir hdir
  have e : clause = lead ++ (dir ++ (gap ++ (name ++ rest))) := by
    rw [hcl]; simp [List.append_assoc]
  rw [e, fieldsASCII_lead _ _ hlead, fieldsASCII_word _ _ _ hdsp, List.nil_append,
    fieldsASCII_gap _ _ _ hdne hgne hgap, fieldsASCII_word _ _ _ hname, List.nil_append]
  rcases hrest with rfl | ⟨c, r, rfl, hc⟩
  · exact ⟨dir, [], hdir, by simp [fieldsASCII, hnne]⟩
  · refine ⟨dir, fieldsASCII [] r, hdir, ?_⟩
    rw [fieldsASCII]
    simp only [hc, if_true, hnne, if_false]

theorem wordsName_clause (dir name : List Nat) (more : List (List Nat))
    (hname : ∀ c ∈ name, asciiSpace c = false) (hnd : isDirection name = false) :
    wordsName (dir :: name :: more) = [name] := by
  have hsp : (0x20 : Nat) ∉ name := by
    intro hm
    have := hname _ hm
    revert this; decide
  have hlen : (dir :: name :: more).length ≥ 2 := by simp
  rw [wordsName, if_pos hlen]
  simp [scanWords, notDirection_eq, hnd, Split_of_not_mem name 0x20 hsp]

theorem bytes_comma : bytes "," = [0x2C] := by decide

theorem clause_of_mem (clauses names : List (List Nat))
    (h : List.Forall₂ WellFormedClause clauses names) (seg : List Nat) (hseg : seg ∈ clauses) :
    ∃ n, WellFormedClause seg n := by
  induction h with
  | nil => cases hseg
  | cons hab _ ih =>
    rcases List.mem_cons.mp hseg with rfl | hm
    · exact ⟨_, hab⟩
    · exact ih hm

theorem flatMap_wordsName (clauses names : List (List Nat))
    (h : List.Forall₂ WellFormedClause clauses names) :
    (clauses.flatMap fun p => wordsName (fieldsASCII [] p)) = names := by
  induction h with
  | nil => rfl
  | cons hab _ ih =>
    obtain ⟨dir, more, -, hf⟩ := fields_of_clause _ _ hab
    obtain ⟨_, _, _, _, _, _, _, _, _, _, hname, hnd, _, _⟩ := hab
    rw [List.flatMap_cons, hf, wordsName_clause _ _ _ hname hnd, ih]
    rfl

/-- The names of a list of well-formed clauses, joined by commas, are the
declared names in order. -/
theorem clauseNames_Join (clauses names : List (List Nat))
    (h : List.Forall₂ WellFormedClause clauses names)
    (hascii : isASCII (Join clauses (bytes ",")) = true) :
    clauseNames (Join clauses (bytes ",")) = names := by
  rw [clauseNames_ascii _ hascii]
  cases clauses with
  | nil =>
    cases h
    rfl
  | cons c cs =>
    have hno : ∀ seg ∈ c :: cs, (0x2C : Nat) ∉ seg := by
      intro seg hseg hm
      obtain ⟨n, hw⟩ := clause_of_mem _ _ h seg hseg
      obtain ⟨_, _, _, _, _, _, _, _, _, _, _, _, _, hcc⟩ := hw
      exact (hcc _ hm).1 rfl
    rw [bytes_comma, Split_Join _ _ hno (by simp)]
    exact flatMap_wordsName _ _ h

theorem mem_Join (l : List (List Nat)) (sep : List Nat) (x : Nat) (h : x ∈ Join l sep) :
    x ∈ sep ∨ ∃ e ∈ l, x ∈ e := by
  induction l with
  | nil => simp [Join] at h
  | cons e es ih =>
    cases es with
    | nil => exact Or.inr ⟨e, by simp, by simpa [Join] using h⟩
    | cons f fs =>
      rw [Join_cons_cons] at h
      rcases List.mem_append.mp h with h1 | h2
      · rcases List.mem_append.mp h1 with h3 | h3
        · exact Or.inr ⟨e, by simp, h3⟩
        · exact Or.inl h3
      · rcases ih h2 with h3 | ⟨g, hg, hx⟩
        · exact Or.inl h3
        · exact Or.inr ⟨g, List.mem_cons_of_mem _ hg, hx⟩

/-- The parser on a text whose keyword is found at the end of `pre` and whose
parameter list is a list of well-formed clauses. -/
theorem parse_wellformed (T : CaseRanges) (pre head post : List Nat)
    (clauses names : List (List Nat))
    (hkw : Index (ToUpper T (pre ++ head ++ bytes "(" ++ Join clauses (bytes ",") ++ bytes ")" ++
      post)) (bytes "PROCEDURE") = some pre.length)
    (hbody : isASCII (Join clauses (bytes ",")) = true)
    (hhead : 0x28 ∉ head)
    (hcl : List.Forall₂ WellFormedClause clauses names) :
    parseProcedureParameters T
      (pre ++ head ++ bytes "(" ++ Join clauses (bytes ",") ++ bytes ")" ++ post) = some names := by
  have hclose : (0x29 : Nat) ∉ Join clauses (bytes ",") := by
    intro hm
    rcases mem_Join _ _ _ hm with h | ⟨e, he, hx⟩
    · revert h; decide
    · obtain ⟨n, hw⟩ := clause_of_mem _ _ hcl e he
      obtain ⟨_, _, _, _, _, _, _, _, _, _, _, _, _, hcc⟩ := hw
      exact (hcc _ hx).2 rfl
  rw [parse_of_index T _ _ hkw (by simp)]
  have hd : (pre ++ head ++ bytes "(" ++ Join clauses (bytes ",") ++ bytes ")" ++ post).drop
      pre.length = head ++ bytes "(" ++ Join clauses (bytes ",") ++ bytes ")" ++ post := by
    simp only [List.append_assoc]
    exact List.drop_left _ _
  rw [hd, parseTail_paren _ _ _ hhead hclose, clauseNames_Join _ _ hcl hbody]

theorem indexFrom_none (sub s : List Nat) (k : Nat) (h : indexFrom sub s k = none) :
    ∀ a b, s ≠ a ++ sub ++ b := by
  induction s generalizing k with
  | nil =>
    intro a b hab
    simp only [indexFrom] at h
    split_ifs at h with hs
    have : sub = [] := by
      have := congrArg List.length hab
      simp at this
      exact List.length_eq_zero.mp (by omega)
    exact hs this
  | cons c cs ih =>
    intro a b hab
    simp only [indexFrom] at h
    split_ifs at h with hp
    cases a with
    | nil =>
      apply hp
      rw [List.isPrefixOf_iff_prefix, hab]
      exact ⟨b, by simp⟩
    | cons x a' =>
      simp only [List.cons_append, List.cons.injEq] at hab
      exact ih (k + 1) h a' b hab.2

theorem keyword_unbordered (j : Nat) (h1 : 1 ≤ j) (h2 : j < 9) :
    ((bytes "PROCEDURE").drop j).isPrefixOf (bytes "PROCEDURE") = false := by
  interval_cases j <;> decide

theorem keyword_not_straddling (V R : List Nat) (hV : V ≠ [])
    (hno : ¬ bytes "PROCEDURE" <+: V) : ¬ bytes "PROCEDURE" <+: V ++ (bytes "PROCEDURE" ++ R) := by
  intro h1
  have h2 : V <+: V ++ (bytes "PROCEDURE" ++ R) := List.prefix_append _ _
  have hlen : (bytes "PROCEDURE").length = 9 := by decide
  by_cases hl : (bytes "PROCEDURE").length ≤ V.length
  · exact hno (List.prefix_of_prefix_length_le h1 h2 hl)
  · have hV2 : V <+: bytes "PROCEDURE" := List.prefix_of_prefix_length_le h2 h1 (by omega)
    obtain ⟨w, hw⟩ := hV2
    obtain ⟨t, ht⟩ := h1
    have hwt : w ++ t = bytes "PROCEDURE" ++ R := by
      have ht2 : V ++ (w ++ t) = V ++ (bytes "PROCEDURE" ++ R) := by
        rw [← List.append_assoc, hw]; exact ht
      exact List.append_cancel_left ht2
    have hwl : w.length + V.length = 9 := by
      have := congrArg List.length hw
      simp at this; omega
    have hw2 : w <+: bytes "PROCEDURE" :=
      List.prefix_of_prefix_length_le ⟨t, hwt⟩ (List.prefix_append _ _) (by omega)
    have hwd : w = (bytes "PROCEDURE").drop V.length := by
      rw [← hw, List.drop_left]
    have hVpos : 1 ≤ V.length := List.length_pos.mpr hV
    have := keyword_unbordered V.length hVpos (by omega)
    rw [← hwd] at this
    rw [← List.isPrefixOf_iff_prefix, this] at hw2
    cases hw2

theorem indexFrom_keyword (U R : List Nat) (k : Nat)
    (hno : ∀ a b, U ≠ a ++ bytes "PROCEDURE" ++ b) :
    indexFrom (bytes "PROCEDURE") (U ++ (bytes "PROCEDURE" ++ R)) k = some (k + U.length) := by
  induction U generalizing k with
  | nil =>
    have hp : (bytes "PROCEDURE").isPrefixOf (bytes "PROCEDURE" ++ R) = true := by
      rw [List.isPrefixOf_iff_prefix]; exact List.prefix_append _ _
    have hc : bytes "PROCEDURE" ++ R = 0x50 :: (bytes "ROCEDURE" ++ R) := rfl
    rw [List.nil_append]
    rw [hc] at hp ⊢
    rw [indexFrom, if_pos hp]; simp
  | cons x xs ih =>
    have hnp : ¬ bytes "PROCEDURE" <+: x :: xs := by
      rintro ⟨b, hb⟩
      exact hno [] b (by simp [hb])
    have hns := keyword_not_straddling (x :: xs) R (by simp) hnp
    rw [← List.isPrefixOf_iff_prefix] at hns
    rw [List.cons_append] at hns ⊢
    rw [indexFrom, if_neg hns, ih (k + 1) (fun a b hab => hno (x :: a) b (by simp [hab]))]
    simp; omega

theorem EncodeRune_ascii (r : Nat) (h : r ≤ 0x7F) : EncodeRune r = [r] := by
  simp [EncodeRune, h]

theorem upperByte_le (c : Nat) (h : c < 0x80) : upperByte c ≤ 0x7F := by
  unfold upperByte
  split_ifs <;> omega

theorem mapRunes_ascii_append (T : CaseRanges) (p r : List Nat) (h : ∀ c ∈ p, c < 0x80) :
    mapRunes (unicodeToUpper T) 0 (p ++ r) = p.map upperByte ++ mapRunes (unicodeToUpper T) 0 r := by
  induction p with
  | nil => rfl
  | cons x xs ih =>
    have hx : x < 0x80 := h x (by simp)
    have hd : DecodeRuneInString (x :: (xs ++ r)) = (x, 1) := by
      simp [DecodeRuneInString, hx]
    have hu : unicodeToUpper T x = upperByte x := by
      simp [unicodeToUpper, show x ≤ 0x7F by omega]
    rw [List.cons_append, mapRunes]
    simp only [hd, hu, EncodeRune_ascii _ (upperByte_le x hx)]
    rw [ih fun c hc => h c (by simp [hc])]
    rfl

/-- An ASCII prefix of a text is upper-cased byte by byte, whatever follows. -/
theorem ToUpper_ascii_prefix (T : CaseRanges) (p r : List Nat) (h : isASCII p = true) :
    ∃ t, ToUpper T (p ++ r) = p.map upperByte ++ t := by
  unfold ToUpper
  split_ifs with ha
  · exact ⟨r.map upperByte, by simp⟩
  · exact ⟨_, mapRunes_ascii_append T p r ((isASCII_iff p).mp h)⟩

theorem asciiSpace_not_sep (c : Nat) (h : asciiSpace c = true) : c ≠ 0x2C ∧ c ≠ 0x29 := by
  constructor <;> rintro rfl <;> revert h <;> decide

theorem isDirection_not_sep (dir : List Nat) (h : isDirection dir = true) :
    ∀ c ∈ dir, c ≠ 0x2C ∧ c ≠ 0x29 := by
  have hsub : ∀ x ∈ dir.map upperByte, x ∈ bytes "INOUT" := by
    simp only [isDirection, Bool.or_eq_true, EqualFold_iff] at h
    rcases h with (h | h) | h <;> rw [h] <;> decide
  intro c hc
  have := hsub _ (List.mem_map_of_mem upperByte hc)
  constructor <;> rintro rfl <;> revert this <;> decide

/-- A clause made of a direction keyword and one more word declares, for the
parser, that word. -/
theorem direction_type_clause (lead dir gap ty trail : List Nat)
    (hlead : ∀ c ∈ lead, asciiSpace c = true) (hdir : isDirection dir = true)
    (hgne : gap ≠ []) (hgap : ∀ c ∈ gap, asciiSpace c = true)
    (htne : ty ≠ []) (hty : ∀ c ∈ ty, asciiSpace c = false ∧ c ≠ 0x2C ∧ c ≠ 0x29)
    (htd : isDirection ty = false) (htrail : ∀ c ∈ trail, asciiSpace c = true) :
    WellFormedClause (lead ++ dir ++ gap ++ ty ++ trail) ty := by
  refine ⟨lead, dir, gap, trail, rfl, hlead, hdir, hgne, hgap, htne, fun c hc => (hty c hc).1, htd,
    ?_, ?_⟩
  · cases trail with
    | nil => exact Or.inl rfl
    | cons x xs => exact Or.inr ⟨x, xs, rfl, htrail x (by simp)⟩
  · intro c hc
    simp only [List.mem_append] at hc
    rcases hc with (((h | h) | h) | h) | h
    · exact asciiSpace_not_sep c (hlead c h)
    · exact isDirection_not_sep dir hdir c h
    · exact asciiSpace_not_sep c (hgap c h)
    · exact (hty c h).2
    · exact asciiSpace_not_sep c (htrail c h)

/-- On ASCII text the three slice expressions are in range: the parser returns
a result. -/
theorem parse_isSome_of_ascii (T : CaseRanges) (d : List Nat) (h : isASCII d = true) :
    ∃ r, parseProcedureParameters T d = some r := by
  cases hi : Index (ToUpper T d) (bytes "PROCEDURE") with
  | none =>
    refine ⟨[], ?_⟩
    unfold parseProcedureParameters
    split_ifs
    · rfl
    · simp only [hi]
  | some start =>
    refine ⟨_, parse_of_index T d start hi ?_⟩
    obtain ⟨u, v, huv, hs⟩ := Index_some _ _ _ hi
    have := congrArg List.length huv
    rw [ToUpper_ascii T d h] at this
    simp at this
    omega

/-- On ASCII text the parser returns the empty sequence when the keyword does
not occur, when no `(` follows it, when no `)` follows that `(`, and when only
white space stands between the two. -/
theorem parse_empty_of_ascii (T : CaseRanges) (d : List Nat) (h : isASCII d = true) :
    (Index (d.map upperByte) (bytes "PROCEDURE") = none → parseProcedureParameters T d = some []) ∧
    (∀ i, Index (d.map upperByte) (bytes "PROCEDURE") = some i →
      (0x28 ∉ d.drop i → parseProcedureParameters T d = some []) ∧
      (∀ u v, d.drop i = u ++ 0x28 :: v → 0x28 ∉ u → 0x29 ∉ v →
        parseProcedureParameters T d = some []) ∧
      (∀ u body post, d.drop i = u ++ bytes "(" ++ body ++ bytes ")" ++ post → 0x28 ∉ u →
        0x29 ∉ body → (∀ c ∈ body, asciiSpace c = true) →
        parseProcedureParameters T d = some [])) := by
  rw [← ToUpper_ascii T d h]
  constructor
  · intro hi
    unfold parseProcedureParameters
    split_ifs
    · rfl
    · simp only [hi]
  · intro i hi
    have hle : i ≤ d.length := by
      obtain ⟨u, v, huv, hs⟩ := Index_some _ _ _ hi
      have := congrArg List.length huv
      rw [ToUpper_ascii T d h] at this
      simp at this
      omega
    rw [parse_of_index T d i hi hle]
    refine ⟨?_, ?_, ?_⟩
    · intro hno
      rw [parseTail, bytes_lparen, Index_single_none _ _ hno]
    · intro u v huv hu hv
      have hclose : (0x29 : Nat) ∉ 0x28 :: v := by simp [hv]
      rw [parseTail, huv, bytes_lparen, Index_single _ _ _ hu]
      simp only [List.drop_left, bytes_rparen, Index_single_none _ _ hclose]
    · intro u body post hd hu hb hsp
      rw [hd, parseTail_paren _ _ _ hu hb, clauseNames]
      have hba : isASCII body = true := by
        rw [isASCII_iff]
        intro c hc
        have := hsp c hc
        simp [asciiSpace] at this
        omega
      have ht : TrimSpace body = [] := by
        rw [TrimSpace_ascii body hba]
        have : body.dropWhile asciiSpace = [] := by
          rw [List.dropWhile_eq_nil_iff]; exact hsp
        rw [this]; rfl
      simp [ht]

theorem Join_nil_sep (l : List (List Nat)) : Join l [] = l.flatten := by
  induction l with
  | nil => rfl
  | cons e es ih =>
    cases es with
    | nil => simp [Join]
    | cons f fs => rw [Join_cons_cons, ih]; simp

theorem bytes_underscore : bytes "_" = [0x5F] := by decide

/-- On a name given by its segments, `toCamelCase` is the concatenation of the
transformed segments, in order. -/
theorem toCamelCase_Join (T : CaseRanges) (segs : List (List Nat))
    (h : ∀ seg ∈ segs, (0x5F : Nat) ∉ seg) (hne : segs ≠ []) :
    toCamelCase T (Join segs (bytes "_")) = (segs.map (camelPart T)).flatten := by
  rw [toCamelCase, bytes_underscore, Split_Join segs 0x5F h hne, Join_nil_sep]

/-- On an ASCII segment the transformation upper-cases the first character and
lower-cases the others. -/
theorem camelPart_ascii (T : CaseRanges) (c : Nat) (rest : List Nat)
    (h : isASCII (c :: rest) = true) :
    camelPart T (c :: rest) = upperByte c :: rest.map lowerByte := by
  have hc : isASCII [c] = true := by
    rw [isASCII_iff] at h ⊢
    intro x hx
    exact h x (by simp at hx; simp [hx])
  have hr : isASCII rest = true := by
    rw [isASCII_iff] at h ⊢
    intro x hx
    exact h x (by simp [hx])
  simp [camelPart, ToUpper, ToLower, hc, hr]

theorem camelPart_nil (T : CaseRanges) : camelPart T [] = [] := by
  simp [camelPart]

theorem DecodeRuneInString_width (b : Nat) (rest : List Nat) :
    1 ≤ (DecodeRuneInString (b :: rest)).2 := by
  simp only [DecodeRuneInString]
  repeat' split
  all_goals simp

theorem DecodeLastRuneInString_width (s : List Nat) (h : s ≠ []) :
    1 ≤ (DecodeLastRuneInString s).2 := by
  unfold DecodeLastRuneInString
  cases hl : s.getLast? with
  | none => exact absurd (List.getLast?_eq_none_iff.mp hl) h
  | some r =>
    simp only []
    split_ifs with h1 h2
    · simp
    · simp
    · have hlt : lastRuneStart s < s.length := by
        have hpos : 0 < s.length := List.length_pos.mpr h
        unfold lastRuneStart
        simp only []
        split_ifs <;> omega
      cases hd : s.drop (lastRuneStart s) with
      | nil =>
        have := congrArg List.length hd
        simp at this
        omega
      | cons b rest => exact DecodeRuneInString_width b rest

/-- The fuel `s.length` of `lastIndexNonSpace` is enough: any two amounts of
fuel that are at least the length of the text give the same result. -/
theorem lastIndexNonSpace_fuel (f1 f2 : Nat) (s : List Nat) (h1 : s.length ≤ f1)
    (h2 : s.length ≤ f2) : lastIndexNonSpace f1 s = lastIndexNonSpace f2 s := by
  induction f1 generalizing f2 s with
  | zero =>
    have : s = [] := List.length_eq_zero.mp (by omega)
    subst this
    cases f2 <;> simp [lastIndexNonSpace]
  | succ n ih =>
    by_cases hs : s = []
    · subst hs
      cases f2 <;> simp [lastIndexNonSpace]
    · have hpos : 0 < s.length := List.length_pos.mpr hs
      have hw := DecodeLastRuneInString_width s hs
      have hlen : (s.take (s.length - (DecodeLastRuneInString s).2)).length < s.length := by
        rw [List.length_take]; omega
      cases f2 with
      | zero => omega
      | succ k =>
        rw [lastIndexNonSpace, lastIndexNonSpace]
        simp only [hs, if_false]
        split_ifs
        · exact ih k _ (by omega) (by omega)
        · rfl

/-- The parser aborts exactly when the offset of the keyword in the upper-cased
copy lies beyond the end of the original text; the two later slice
expressions are always in range. -/
theorem parse_eq_none_iff (T : CaseRanges) (d : List Nat) :
    parseProcedureParameters T d = none ↔
      ∃ start, Index (ToUpper T d) (bytes "PROCEDURE") = some start ∧ d.length < start := by
  cases hi : Index (ToUpper T d) (bytes "PROCEDURE") with
  | none =>
    have : parseProcedureParameters T d = some [] := by
      unfold parseProcedureParameters
      split_ifs
      · rfl
      · simp only [hi]
    simp [this]
  | some start =>
    by_cases hle : start ≤ d.length
    · rw [parse_of_index T d start hi hle]
      simp; omega
    · have hne : d ≠ [] := by
        rintro rfl
        have : Index (ToUpper T []) (bytes "PROCEDURE") = none := rfl
        rw [this] at hi; cases hi
      have : parseProcedureParameters T d = none := by
        unfold parseProcedureParameters
        simp only [hne, if_false, hi, sliceFrom, hle]
      simp [this]; omega

/-! ## Lemmas on UTF-8 decoding -/

theorem Decode_ascii (b : Nat) (rest : List Nat) (h : b < 0x80) :
    DecodeRuneInString (b :: rest) = (b, 1) := by
  simp [DecodeRuneInString, h]

theorem Decode_single (b : Nat) (h : 0x80 ≤ b) : DecodeRuneInString [b] = (RuneError, 1) := by
  simp only [DecodeRuneInString]
  repeat' split
  all_goals first | rfl | omega

theorem Decode_cont (b : Nat) (rest : List Nat) (h : isCont b = true) :
    DecodeRuneInString (b :: rest) = (RuneError, 1) := by
  simp only [isCont, Bool.and_eq_true, decide_eq_true_eq] at h
  simp only [DecodeRuneInString]
  repeat' split
  all_goals first | rfl | omega

theorem Decode_width_le (s : List Nat) : (DecodeRuneInString s).2 ≤ s.length := by
  cases s with
  | nil => simp [DecodeRuneInString]
  | cons b rest =>
    simp only [DecodeRuneInString]
    repeat' split
    all_goals simp

theorem Decode_tail_cont (b : Nat) (rest : List Nat) :
    ∀ c ∈ rest.take ((DecodeRuneInString (b :: rest)).2 - 1), isCont c = true := by
  simp only [DecodeRuneInString]
  repeat' split
  all_goals simp_all [isCont]
  all_goals omega

theorem Decode_lead (b : Nat) (rest : List Nat) (h : 1 < (DecodeRuneInString (b :: rest)).2) :
    0xC2 ≤ b := by
  revert h
  simp only [DecodeRuneInString]
  repeat' split
  all_goals simp_all
  all_goals omega

theorem Decode_append_start1 (b0 c0 : Nat) (xs : List Nat) (hc : ¬ (0x80 ≤ c0 ∧ c0 ≤ 0xBF)) :
    DecodeRuneInString (b0 :: c0 :: xs) = DecodeRuneInString [b0] := by
  rcases xs with _ | ⟨c1, _ | ⟨c2, xs⟩⟩
  all_goals
    simp only [DecodeRuneInString, isCont]
    repeat' split
    all_goals first
      | rfl
      | (exfalso
         simp only [Bool.and_eq_true, decide_eq_true_eq] at *
         omega)

theorem Decode_append_start2 (b0 b1 c0 : Nat) (xs : List Nat)
    (hc : ¬ (0x80 ≤ c0 ∧ c0 ≤ 0xBF)) :
    DecodeRuneInString (b0 :: b1 :: c0 :: xs) = DecodeRuneInString [b0, b1] := by
  rcases xs with _ | ⟨c1, xs⟩
  all_goals
    simp only [DecodeRuneInString, isCont]
    repeat' split
    all_goals first
      | rfl
      | (exfalso
         simp only [Bool.and_eq_true, decide_eq_true_eq] at *
         omega)

theorem Decode_append_start3 (b0 b1 b2 c0 : Nat) (xs : List Nat)
    (hc : ¬ (0x80 ≤ c0 ∧ c0 ≤ 0xBF)) :
    DecodeRuneInString (b0 :: b1 :: b2 :: c0 :: xs) = DecodeRuneInString [b0, b1, b2] := by
  simp only [DecodeRuneInString, isCont]
  repeat' split
  all_goals first
    | rfl
    | (exfalso
       simp only [Bool.and_eq_true, decide_eq_true_eq] at *
       omega)

theorem Decode_append4 (b0 b1 b2 b3 : Nat) (r x : List Nat) :
    DecodeRuneInString (b0 :: b1 :: b2 :: b3 :: (r ++ x)) =
      DecodeRuneInString (b0 :: b1 :: b2 :: b3 :: r) := by
  simp only [DecodeRuneInString]

theorem Decode_append_cons_start (t : List Nat) (c0 : Nat) (xs : List Nat) (ht : t ≠ [])
    (hc : ¬ (0x80 ≤ c0 ∧ c0 ≤ 0xBF)) :
    DecodeRuneInString (t ++ c0 :: xs) = DecodeRuneInString t := by
  rcases t with _ | ⟨b0, _ | ⟨b1, _ | ⟨b2, _ | ⟨b3, r3⟩⟩⟩⟩
  · exact absurd rfl ht
  · exact Decode_append_start1 b0 c0 xs hc
  · exact Decode_append_start2 b0 b1 c0 xs hc
  · exact Decode_append_start3 b0 b1 b2 c0 xs hc
  · exact Decode_append4 b0 b1 b2 b3 r3 (c0 :: xs)

theorem Decode_append_of_start (t x : List Nat) (ht : t ≠ [])
    (hx : ∀ c, x.head? = some c → isCont c = false) :
    DecodeRuneInString (t ++ x) = DecodeRuneInString t := by
  cases x with
  | nil => simp
  | cons c0 xs =>
    apply Decode_append_cons_start t c0 xs ht
    have := hx c0 rfl
    simpa [isCont] using this

theorem Decode_two (b0 b1 : Nat) (tl : List Nat) (h0 : 0xC2 ≤ b0) (h1 : b0 ≤ 0xDF)
    (h2 : isCont b1 = true) :
    DecodeRuneInString (b0 :: b1 :: tl) = ((b0 - 0xC0) * 64 + (b1 - 0x80), 2) := by
  have hn : ¬ b0 < 0x80 := by omega
  simp [DecodeRuneInString, hn, h0, h1, h2]

theorem Decode_three (b0 b1 b2 : Nat) (tl : List Nat) (h0 : 0xE0 ≤ b0) (h1 : b0 ≤ 0xEF)
    (hlo : (if b0 = 0xE0 then 0xA0 else 0x80) ≤ b1)
    (hhi : b1 ≤ (if b0 = 0xED then 0x9F else 0xBF)) (h2 : isCont b2 = true) :
    DecodeRuneInString (b0 :: b1 :: b2 :: tl) =
      ((b0 - 0xE0) * 4096 + (b1 - 0x80) * 64 + (b2 - 0x80), 3) := by
  have hn : ¬ b0 < 0x80 := by omega
  have hm : ¬ (0xC2 ≤ b0 ∧ b0 ≤ 0xDF) := by omega
  simp only [DecodeRuneInString, hn, hm, h0, h1, and_self, if_true, if_false, hlo, hhi, h2]

theorem Decode_four (b0 b1 b2 b3 : Nat) (tl : List Nat) (h0 : 0xF0 ≤ b0) (h1 : b0 ≤ 0xF4)
    (hlo : (if b0 = 0xF0 then 0x90 else 0x80) ≤ b1)
    (hhi : b1 ≤ (if b0 = 0xF4 then 0x8F else 0xBF)) (h2 : isCont b2 = true)
    (h3 : isCont b3 = true) :
    DecodeRuneInString (b0 :: b1 :: b2 :: b3 :: tl) =
      ((b0 - 0xF0) * 262144 + (b1 - 0x80) * 4096 + (b2 - 0x80) * 64 + (b3 - 0x80), 4) := by
  have hn : ¬ b0 < 0x80 := by omega
  have hm : ¬ (0xC2 ≤ b0 ∧ b0 ≤ 0xDF) := by omega
  have hk : ¬ (0xE0 ≤ b0 ∧ b0 ≤ 0xEF) := by omega
  simp only [DecodeRuneInString, hn, hm, hk, h0, h1, and_self, if_true, if_false, hlo, hhi, h2,
    h3]

/-- The shapes of a text according to its first rune. -/
theorem Decode_cases (b0 : Nat) (rest : List Nat) :
    (b0 < 0x80 ∧ DecodeRuneInString (b0 :: rest) = (b0, 1)) ∨
    DecodeRuneInString (b0 :: rest) = (RuneError, 1) ∨
    (∃ b1 tl, rest = b1 :: tl ∧ 0xC2 ≤ b0 ∧ b0 ≤ 0xDF ∧ isCont b1 = true) ∨
    (∃ b1 b2 tl, rest = b1 :: b2 :: tl ∧ 0xE0 ≤ b0 ∧ b0 ≤ 0xEF ∧
      (if b0 = 0xE0 then 0xA0 else 0x80) ≤ b1 ∧ b1 ≤ (if b0 = 0xED then 0x9F else 0xBF) ∧
      isCont b2 = true) ∨
    (∃ b1 b2 b3 tl, rest = b1 :: b2 :: b3 :: tl ∧ 0xF0 ≤ b0 ∧ b0 ≤ 0xF4 ∧
      (if b0 = 0xF0 then 0x90 else 0x80) ≤ b1 ∧ b1 ≤ (if b0 = 0xF4 then 0x8F else 0xBF) ∧
      isCont b2 = true ∧ isCont b3 = true) := by
  by_cases h1 : b0 < 0x80
  · exact Or.inl ⟨h1, Decode_ascii b0 rest h1⟩
  by_cases h2 : 0xC2 ≤ b0 ∧ b0 ≤ 0xDF
  · rcases rest with _ | ⟨b1, tl⟩
    · exact Or.inr (Or.inl (by simp [DecodeRuneInString, h1, h2]))
    · by_cases hc : isCont b1 = true
      · exact Or.inr (Or.inr (Or.inl ⟨b1, tl, rfl, h2.1, h2.2, hc⟩))
      · exact Or.inr (Or.inl (by simp [DecodeRuneInString, h1, h2, hc]))
  by_cases h3 : 0xE0 ≤ b0 ∧ b0 ≤ 0xEF
  · rcases rest with _ | ⟨b1, _ | ⟨b2, tl⟩⟩
    · exact Or.inr (Or.inl (by simp [DecodeRuneInString, h1, h2, h3]))
    · exact Or.inr (Or.inl (by simp [DecodeRuneInString, h1, h2, h3]))
    · by_cases hc : (if b0 = 0xE0 then 0xA0 else 0x80) ≤ b1 ∧
          b1 ≤ (if b0 = 0xED then 0x9F else 0xBF) ∧ isCont b2 = true
      · exact Or.inr (Or.inr (Or.inr (Or.inl ⟨b1, b2, tl, rfl, h3.1, h3.2, hc.1, hc.2.1, hc.2.2⟩)))
      · exact Or.inr (Or.inl (by simp only [DecodeRuneInString, h1, h2, h3, hc, if_false, if_true, and_self]))
  by_cases h4 : 0xF0 ≤ b0 ∧ b0 ≤ 0xF4
  · rcases rest with _ | ⟨b1, _ | ⟨b2, _ | ⟨b3, tl⟩⟩⟩
    · exact Or.inr (Or.inl (by simp [DecodeRuneInString, h1, h2, h3, h4]))
    · exact Or.inr (Or.inl (by simp [DecodeRuneInString, h1, h2, h3, h4]))
    · exact Or.inr (Or.inl (by simp [DecodeRuneInString, h1, h2, h3, h4]))
    · by_cases hc : (if b0 = 0xF0 then 0x90 else 0x80) ≤ b1 ∧
          b1 ≤ (if b0 = 0xF4 then 0x8F else 0xBF) ∧ isCont b2 = true ∧ isCont b3 = true
      · exact Or.inr (Or.inr (Or.inr (Or.inr
          ⟨b1, b2, b3, tl, rfl, h4.1, h4.2, hc.1, hc.2.1, hc.2.2.1, hc.2.2.2⟩)))
      · exact Or.inr (Or.inl (by
          simp only [DecodeRuneInString, h1, h2, h3, h4, hc, if_false, if_true, and_self]))
  · exact Or.inr (Or.inl (by simp [DecodeRuneInString, h1, h2, h3, h4]))

theorem Decode_append_of_valid (t x : List Nat) (ht : t ≠ [])
    (h : DecodeRuneInString t ≠ (RuneError, 1)) :
    DecodeRuneInString (t ++ x) = DecodeRuneInString t := by
  cases t with
  | nil => exact absurd rfl ht
  | cons b0 rest =>
    rcases Decode_cases b0 rest with ⟨h1, h2⟩ | h' | ⟨b1, tl, rfl, h0, h1, h2⟩ |
      ⟨b1, b2, tl, rfl, h0, h1, hlo, hhi, h2⟩ | ⟨b1, b2, b3, tl, rfl, h0, h1, hlo, hhi, h2, h3⟩
    · rw [h2]
      exact Decode_ascii b0 _ h1
    · exact absurd h' h
    · rw [Decode_two b0 b1 tl h0 h1 h2]
      exact Decode_two b0 b1 _ h0 h1 h2
    · rw [Decode_three b0 b1 b2 tl h0 h1 hlo hhi h2]
      exact Decode_three b0 b1 b2 _ h0 h1 hlo hhi h2
    · rw [Decode_four b0 b1 b2 b3 tl h0 h1 hlo hhi h2 h3]
      exact Decode_four b0 b1 b2 b3 _ h0 h1 hlo hhi h2 h3

/-- A rune that is not the error rune of width one is determined by its own
bytes: they decode to it in front of any text. -/
theorem Decode_take_append (s x : List Nat) (hs : s ≠ [])
    (hv : DecodeRuneInString s ≠ (RuneError, 1)) :
    DecodeRuneInString (s.take (DecodeRuneInString s).2 ++ x) = DecodeRuneInString s := by
  cases s with
  | nil => exact absurd rfl hs
  | cons b0 rest =>
    rcases Decode_cases b0 rest with ⟨h1, h2⟩ | h | ⟨b1, tl, rfl, h0, h1, h2⟩ |
      ⟨b1, b2, tl, rfl, h0, h1, hlo, hhi, h2⟩ | ⟨b1, b2, b3, tl, rfl, h0, h1, hlo, hhi, h2, h3⟩
    · rw [h2]
      exact Decode_ascii b0 _ h1
    · exact absurd h hv
    · rw [Decode_two b0 b1 tl h0 h1 h2]
      exact Decode_two b0 b1 x h0 h1 h2
    · rw [Decode_three b0 b1 b2 tl h0 h1 hlo hhi h2]
      exact Decode_three b0 b1 b2 x h0 h1 hlo hhi h2
    · rw [Decode_four b0 b1 b2 b3 tl h0 h1 hlo hhi h2 h3]
      exact Decode_four b0 b1 b2 b3 x h0 h1 hlo hhi h2 h3

/-! ## Lemmas on white-space runs, fields and trimming -/

theorem IsSpace_RuneError : IsSpace RuneError = false := by decide

theorem IsSpace_ascii (b : Nat) (h : b < 0x80) : IsSpace b = asciiSpace b := by
  have h1 : b ≤ 0xFF := by omega
  have h2 : (b == 0x85) = false := by
    rw [beq_eq_false_iff_ne]; omega
  have h3 : (b == 0xA0) = false := by
    rw [beq_eq_false_iff_ne]; omega
  simp only [IsSpace, asciiSpace, h1, if_true, h2, h3, Bool.or_false]

theorem IsSpaceChunk_decode (c x : List Nat) (h : IsSpaceChunk c) :
    DecodeRuneInString (c ++ x) = DecodeRuneInString c := by
  apply Decode_append_of_valid c x h.1
  intro he
  have := h.2.2
  rw [he] at this
  simp [IsSpace_RuneError] at this

theorem IsSpaceChunk_head (c : List Nat) (h : IsSpaceChunk c) :
    ∃ b rest, c = b :: rest ∧ isCont b = false := by
  obtain ⟨hne, -, hsp⟩ := h
  cases c with
  | nil => exact absurd rfl hne
  | cons b rest =>
    refine ⟨b, rest, rfl, ?_⟩
    by_contra hc
    have hc' : isCont b = true := by simpa using hc
    rw [Decode_cont b rest hc'] at hsp
    simp [IsSpace_RuneError] at hsp

theorem SpaceRun_head (R : List Nat) (h : SpaceRun R) :
    ∀ c, R.head? = some c → isCont c = false := by
  induction h with
  | nil => intro c hc; cases hc
  | cons c rest hc _ _ =>
    obtain ⟨b, r, rfl, hb⟩ := IsSpaceChunk_head c hc
    intro x hx
    simp at hx
    rw [← hx]; exact hb

theorem SpaceRun_append (A B : List Nat) (hA : SpaceRun A) (hB : SpaceRun B) :
    SpaceRun (A ++ B) := by
  induction hA with
  | nil => simpa using hB
  | cons c rest hc _ ih =>
    rw [List.append_assoc]
    exact SpaceRun.cons c (rest ++ B) hc ih

theorem SpaceRun_single (c : List Nat) (h : IsSpaceChunk c) : SpaceRun c := by
  have := SpaceRun.cons c [] h SpaceRun.nil
  simpa using this

theorem IsSpaceChunk_ascii (b : Nat) (h : asciiSpace b = true) : IsSpaceChunk [b] := by
  have hb : b < 0x80 := by
    simp [asciiSpace] at h
    omega
  refine ⟨by simp, ?_, ?_⟩
  · rw [Decode_ascii b [] hb]; rfl
  · rw [Decode_ascii b [] hb]
    simp only []
    rw [IsSpace_ascii b hb, h]

theorem SpaceRun_of_ascii (w : List Nat) (h : ∀ c ∈ w, asciiSpace c = true) : SpaceRun w := by
  induction w with
  | nil => exact SpaceRun.nil
  | cons b rest ih =>
    have := SpaceRun.cons [b] rest (IsSpaceChunk_ascii b (h b (by simp)))
      (ih fun c hc => h c (by simp [hc]))
    simpa using this

/-- Every byte of an encoded white-space rune is an ASCII white-space byte or a
byte above 0x7F. -/
theorem IsSpaceChunk_bytes (c : List Nat) (h : IsSpaceChunk c) :
    ∀ x ∈ c, asciiSpace x = true ∨ 0x80 ≤ x := by
  obtain ⟨hne, hlen, hsp⟩ := h
  cases c with
  | nil => exact absurd rfl hne
  | cons b rest =>
    by_cases hb : b < 0x80
    · rw [Decode_ascii b rest hb] at hlen hsp
      simp at hlen
      subst hlen
      intro x hx
      simp at hx
      subst hx
      left
      simp only [] at hsp
      rw [← IsSpace_ascii x hb]; exact hsp
    · intro x hx
      right
      rcases List.mem_cons.mp hx with rfl | hm
      · omega
      · have ht := Decode_tail_cont b rest
        rw [hlen] at ht
        simp only [List.length_cons, Nat.add_sub_cancel, List.take_length] at ht
        have := ht x hm
        simp [isCont] at this
        omega

theorem SpaceRun_bytes (R : List Nat) (h : SpaceRun R) :
    ∀ x ∈ R, asciiSpace x = true ∨ 0x80 ≤ x := by
  induction h with
  | nil => intro x hx; cases hx
  | cons c rest hc _ ih =>
    intro x hx
    rcases List.mem_append.mp hx with h1 | h1
    · exact IsSpaceChunk_bytes c hc x h1
    · exact ih x h1

theorem fieldsRunes_keep (keep : Bool) (cur s : List Nat) :
    fieldsRunes 0 keep cur s = fieldsRunes 0 false cur s := by
  cases s <;> simp [fieldsRunes]

theorem fieldsRunes_skip (k : Nat) (keep : Bool) (cur s : List Nat) (h : k ≤ s.length) :
    fieldsRunes k keep cur s =
      fieldsRunes 0 false (if keep then cur ++ s.take k else cur) (s.drop k) := by
  induction k generalizing cur s with
  | zero =>
    rw [fieldsRunes_keep]
    cases keep <;> simp
  | succ n ih =>
    cases s with
    | nil => simp at h
    | cons b rest =>
      rw [fieldsRunes, ih _ _ (by simpa using h)]
      cases keep <;> simp

/-- One step of `strings.FieldsFunc` on a non-empty text: the first rune either
closes the current field or is added to it. -/
theorem fieldsRunes_step (keep : Bool) (cur s : List Nat) (hs : s ≠ []) :
    fieldsRunes 0 keep cur s =
      if IsSpace (DecodeRuneInString s).1 then
        (if cur = [] then fieldsRunes 0 false [] (s.drop (DecodeRuneInString s).2)
          else cur :: fieldsRunes 0 false [] (s.drop (DecodeRuneInString s).2))
      else fieldsRunes 0 false (cur ++ s.take (DecodeRuneInString s).2)
        (s.drop (DecodeRuneInString s).2) := by
  cases s with
  | nil => exact absurd rfl hs
  | cons b rest =>
    have hw := DecodeRuneInString_width b rest
    have hle := Decode_width_le (b :: rest)
    have hk : (DecodeRuneInString (b :: rest)).2 - 1 ≤ rest.length := by
      simp at hle; omega
    have hd : (b :: rest).drop (DecodeRuneInString (b :: rest)).2 =
        rest.drop ((DecodeRuneInString (b :: rest)).2 - 1) := by
      obtain ⟨m, hm⟩ : ∃ m, (DecodeRuneInString (b :: rest)).2 = m + 1 :=
        ⟨(DecodeRuneInString (b :: rest)).2 - 1, by omega⟩
      rw [hm]; simp
    have ht : (b :: rest).take (DecodeRuneInString (b :: rest)).2 =
        b :: rest.take ((DecodeRuneInString (b :: rest)).2 - 1) := by
      obtain ⟨m, hm⟩ : ∃ m, (DecodeRuneInString (b :: rest)).2 = m + 1 :=
        ⟨(DecodeRuneInString (b :: rest)).2 - 1, by omega⟩
      rw [hm]; simp
    rw [fieldsRunes, hd, ht]
    split_ifs with h1 h2
    · rw [fieldsRunes_skip _ _ _ _ hk]; simp
    · rw [fieldsRunes_skip _ _ _ _ hk]; simp
    · rw [fieldsRunes_skip _ _ _ _ hk]; simp

theorem fieldsRunes_chunk (keep : Bool) (cur c x : List Nat) (h : IsSpaceChunk c) :
    fieldsRunes 0 keep cur (c ++ x) =
      if cur = [] then fieldsRunes 0 false [] x else cur :: fieldsRunes 0 false [] x := by
  have hne : c ++ x ≠ [] := by simp [h.1]
  rw [fieldsRunes_step keep cur (c ++ x) hne, IsSpaceChunk_decode c x h, h.2.2, h.2.1]
  simp

theorem fieldsRunes_spaceRun_prefix (keep : Bool) (L x : List Nat) (h : SpaceRun L) :
    fieldsRunes 0 keep [] (L ++ x) = fieldsRunes 0 false [] x := by
  induction h generalizing keep with
  | nil => simpa using fieldsRunes_keep keep [] x
  | cons c rest hc _ ih =>
    rw [List.append_assoc, fieldsRunes_chunk keep [] c (rest ++ x) hc]
    simpa using ih false

theorem fieldsRunes_spaceRun (keep : Bool) (cur R : List Nat) (h : SpaceRun R) :
    fieldsRunes 0 keep cur R = if cur = [] then [] else [cur] := by
  cases h with
  | nil => simp [fieldsRunes]
  | cons c rest hc hr =>
    rw [fieldsRunes_chunk keep cur c rest hc]
    have := fieldsRunes_spaceRun_prefix false rest [] hr
    simp only [List.append_nil] at this
    rw [this]
    simp [fieldsRunes]

theorem fieldsRunes_spaceRun_suffix (n : Nat) (keep : Bool) (cur y R : List Nat)
    (hn : y.length ≤ n) (h : SpaceRun R) :
    fieldsRunes 0 keep cur (y ++ R) = fieldsRunes 0 keep cur y := by
  induction n generalizing keep cur y with
  | zero =>
    have : y = [] := List.length_eq_zero.mp (by omega)
    subst this
    rw [List.nil_append, fieldsRunes_spaceRun keep cur R h]
    simp [fieldsRunes]
  | succ m ih =>
    by_cases hy : y = []
    · subst hy
      rw [List.nil_append, fieldsRunes_spaceRun keep cur R h]
      simp [fieldsRunes]
    · have hne : y ++ R ≠ [] := by simp [hy]
      have hd := Decode_append_of_start y R hy (SpaceRun_head R h)
      have hle := Decode_width_le y
      obtain ⟨b, rest, rfl⟩ : ∃ b rest, y = b :: rest := by
        cases y with
        | nil => exact absurd rfl hy
        | cons b rest => exact ⟨b, rest, rfl⟩
      have hw := DecodeRuneInString_width b rest
      rw [fieldsRunes_step keep cur _ hne, fieldsRunes_step keep cur _ hy, hd,
        List.drop_append_of_le_length hle, List.take_append_of_le_length hle]
      have hlen : ((b :: rest).drop (DecodeRuneInString (b :: rest)).2).length ≤ m := by
        simp at hn ⊢; omega
      rw [ih false [] _ hlen, ih false _ _ hlen]

theorem fieldsRunes_ascii (keep : Bool) (cur s : List Nat) (h : ∀ c ∈ s, c < 0x80) :
    fieldsRunes 0 keep cur s = fieldsASCII cur s := by
  induction s generalizing keep cur with
  | nil => simp [fieldsRunes, fieldsASCII]
  | cons b rest ih =>
    have hb : b < 0x80 := h b (by simp)
    have hr : ∀ c ∈ rest, c < 0x80 := fun c hc => h c (by simp [hc])
    rw [fieldsRunes, fieldsASCII, Decode_ascii b rest hb]
    simp only [IsSpace_ascii b hb, Nat.sub_self, ih _ _ hr]

/-- On every text `strings.Fields` is the rune-wise `FieldsFunc`; the ASCII
path computes the same fields. -/
theorem Fields_eq_fieldsRunes (s : List Nat) : Fields s = fieldsRunes 0 false [] s := by
  unfold Fields
  split_ifs with h
  · rw [fieldsRunes_ascii false [] s ((isASCII_iff s).mp h)]
  · rfl

theorem Decode_nil : DecodeRuneInString [] = (RuneError, 0) := rfl

/-- No offset of `cur` starts a white-space rune when none does in a longer
text that begins with `cur`. -/
theorem no_space_of_context (cur rest : List Nat)
    (hq : ∀ i, i < cur.length → IsSpace (DecodeRuneInString ((cur ++ rest).drop i)).1 = false) :
    ∀ i, IsSpace (DecodeRuneInString (cur.drop i)).1 = false := by
  intro i
  by_cases hi : i < cur.length
  · by_contra hsp
    have hsp' : IsSpace (DecodeRuneInString (cur.drop i)).1 = true := by
      cases h : IsSpace (DecodeRuneInString (cur.drop i)).1
      · exact absurd h hsp
      · rfl
    have hne : cur.drop i ≠ [] := by
      intro he
      have := congrArg List.length he
      rw [List.length_drop, List.length_nil] at this
      omega
    have hv : DecodeRuneInString (cur.drop i) ≠ (RuneError, 1) := by
      intro he
      rw [he, IsSpace_RuneError] at hsp'
      cases hsp'
    have := hq i hi
    rw [List.drop_append_of_le_length (by omega),
      Decode_append_of_valid _ rest hne hv, hsp'] at this
    cases this
  · rw [List.drop_of_length_le (by omega), Decode_nil]
    exact IsSpace_RuneError

theorem fieldsRunes_nil_mem (keep : Bool) (cur w : List Nat)
    (hw : w ∈ fieldsRunes 0 keep cur []) : w = cur ∧ cur ≠ [] := by
  rw [fieldsRunes] at hw
  split_ifs at hw with hc
  · cases hw
  · exact ⟨List.mem_singleton.mp hw, hc⟩

theorem fieldsRunes_words (n : Nat) (keep : Bool) (cur s : List Nat) (hn : s.length ≤ n)
    (hQ : ∀ i, i < cur.length → IsSpace (DecodeRuneInString ((cur ++ s).drop i)).1 = false) :
    ∀ w ∈ fieldsRunes 0 keep cur s,
      w ≠ [] ∧ (∀ i, IsSpace (DecodeRuneInString (w.drop i)).1 = false) ∧
        ∀ c ∈ w, c ∈ cur ++ s := by
  induction n generalizing keep cur s with
  | zero =>
    have : s = [] := List.length_eq_zero.mp (by omega)
    subst this
    intro w hw
    obtain ⟨rfl, hc⟩ := fieldsRunes_nil_mem keep cur w hw
    exact ⟨hc, no_space_of_context w [] hQ, fun c hc => List.mem_append_left _ hc⟩
  | succ m ih =>
    cases s with
    | nil =>
      intro w hw
      obtain ⟨rfl, hc⟩ := fieldsRunes_nil_mem keep cur w hw
      exact ⟨hc, no_space_of_context w [] hQ, fun c hc => List.mem_append_left _ hc⟩
    | cons b rest =>
      have hw1 := DecodeRuneInString_width b rest
      have hle := Decode_width_le (b :: rest)
      rw [List.length_cons] at hle hn
      have hlen : ((b :: rest).drop (DecodeRuneInString (b :: rest)).2).length ≤ m := by
        rw [List.length_drop, List.length_cons]; omega
      have hsub : ∀ c ∈ (b :: rest).drop (DecodeRuneInString (b :: rest)).2, c ∈ b :: rest :=
        fun c hc => List.mem_of_mem_drop hc
      have hnil : ∀ w ∈ fieldsRunes 0 false [] ((b :: rest).drop (DecodeRuneInString (b :: rest)).2),
          w ≠ [] ∧ (∀ i, IsSpace (DecodeRuneInString (w.drop i)).1 = false) ∧
            ∀ c ∈ w, c ∈ cur ++ b :: rest := by
        intro w hw
        obtain ⟨h1, h2, h3⟩ := ih false [] _ hlen (fun i hi => absurd hi (Nat.not_lt_zero i)) w hw
        exact ⟨h1, h2, fun c hc => List.mem_append_right _ (hsub c (h3 c hc))⟩
      intro w hw
      rw [fieldsRunes_step keep cur _ (List.cons_ne_nil b rest)] at hw
      split_ifs at hw with hsp hc
      · exact hnil w hw
      · rcases List.mem_cons.mp hw with rfl | hw'
        · exact ⟨hc, no_space_of_context w _ hQ, fun c hc => List.mem_append_left _ hc⟩
        · exact hnil w hw'
      · have hcat : (cur ++ (b :: rest).take (DecodeRuneInString (b :: rest)).2) ++
            (b :: rest).drop (DecodeRuneInString (b :: rest)).2 = cur ++ b :: rest := by
          rw [List.append_assoc, List.take_append_drop]
        have hlt : (cur ++ (b :: rest).take (DecodeRuneInString (b :: rest)).2).length =
            cur.length + (DecodeRuneInString (b :: rest)).2 := by
          rw [List.length_append, List.length_take, List.length_cons]; omega
        have hQ2 : ∀ i, i < (cur ++ (b :: rest).take (DecodeRuneInString (b :: rest)).2).length →
            IsSpace (DecodeRuneInString (((cur ++ (b :: rest).take
              (DecodeRuneInString (b :: rest)).2) ++
              (b :: rest).drop (DecodeRuneInString (b :: rest)).2).drop i)).1 = false := by
          intro i hi
          rw [hcat]
          rw [hlt] at hi
          by_cases hi1 : i < cur.length
          · exact hQ i hi1
          · obtain ⟨j, rfl⟩ : ∃ j, i = cur.length + j := ⟨i - cur.length, by omega⟩
            rw [List.drop_append]
            cases j with
            | zero =>
              rw [List.drop_zero]
              cases h : IsSpace (DecodeRuneInString (b :: rest)).1
              · rfl
              · exact absurd h hsp
            | succ k =>
              have hk : k < rest.length := by omega
              have hmem : rest[k] ∈ rest.take ((DecodeRuneInString (b :: rest)).2 - 1) := by
                rw [List.mem_take_iff_getElem]
                exact ⟨k, by rw [Nat.lt_min]; constructor <;> omega, rfl⟩
              have hcont := Decode_tail_cont b rest _ hmem
              have hdk : (b :: rest).drop (k + 1) = rest[k] :: rest.drop (k + 1) := by
                rw [List.drop_succ_cons, List.drop_eq_getElem_cons hk]
              rw [hdk, Decode_cont _ _ hcont]
              exact IsSpace_RuneError
        obtain ⟨h1, h2, h3⟩ := ih false _ _ hlen hQ2 w hw
        refine ⟨h1, h2, fun c hc => ?_⟩
        have := h3 c hc
        rw [hcat] at this
        exact this

/-- Every field returned by `strings.Fields` is non-empty, consists of bytes of
the text, and at none of its offsets starts a white-space rune. -/
theorem Fields_words (s w : List Nat) (hw : w ∈ Fields s) :
    w ≠ [] ∧ (∀ i, IsSpace (DecodeRuneInString (w.drop i)).1 = false) ∧ ∀ c ∈ w, c ∈ s := by
  rw [Fields_eq_fieldsRunes] at hw
  have := fieldsRunes_words s.length false [] s (Nat.le_refl _)
    (fun i hi => absurd hi (Nat.not_lt_zero i)) w hw
  simpa using this

theorem no_asciiSpace_of_no_space (w : List Nat)
    (h : ∀ i, IsSpace (DecodeRuneInString (w.drop i)).1 = false) :
    ∀ c ∈ w, asciiSpace c = false := by
  intro c hc
  obtain ⟨i, hi, rfl⟩ := List.getElem_of_mem hc
  cases hsp : asciiSpace w[i]
  · rfl
  · have hb : w[i] < 0x80 := by
      simp [asciiSpace] at hsp
      omega
    have := h i
    rw [List.drop_eq_getElem_cons hi, Decode_ascii _ _ hb] at this
    simp only [] at this
    rw [IsSpace_ascii _ hb, hsp] at this
    cases this

theorem first_chunk (s : List Nat) (h : IsSpace (DecodeRuneInString s).1 = true) :
    IsSpaceChunk (s.take (DecodeRuneInString s).2) := by
  cases s with
  | nil => rw [Decode_nil, IsSpace_RuneError] at h; cases h
  | cons b rest =>
    have hw := DecodeRuneInString_width b rest
    have hle := Decode_width_le (b :: rest)
    have hv : DecodeRuneInString (b :: rest) ≠ (RuneError, 1) := by
      intro he
      rw [he, IsSpace_RuneError] at h
      cases h
    have hd := Decode_take_append (b :: rest) [] (List.cons_ne_nil _ _) hv
    rw [List.append_nil] at hd
    refine ⟨?_, ?_, ?_⟩
    · intro he
      have := congrArg List.length he
      rw [List.length_take, List.length_nil] at this
      omega
    · rw [hd, List.length_take]; omega
    · rw [hd]; exact h

theorem trimLeftSpace_skip (k : Nat) (s : List Nat) :
    trimLeftSpace k s = trimLeftSpace 0 (s.drop k) := by
  induction k generalizing s with
  | zero => rfl
  | succ n ih =>
    cases s with
    | nil => rfl
    | cons b rest => rw [trimLeftSpace, ih, List.drop_succ_cons]

theorem trimLeftSpace_step (s : List Nat) (hs : s ≠ []) :
    trimLeftSpace 0 s =
      if IsSpace (DecodeRuneInString s).1 then trimLeftSpace 0 (s.drop (DecodeRuneInString s).2)
      else s := by
  cases s with
  | nil => exact absurd rfl hs
  | cons b rest =>
    have hw := DecodeRuneInString_width b rest
    obtain ⟨m, hm⟩ : ∃ m, (DecodeRuneInString (b :: rest)).2 = m + 1 :=
      ⟨(DecodeRuneInString (b :: rest)).2 - 1, by omega⟩
    rw [trimLeftSpace, trimLeftSpace_skip, hm]
    simp

/-- What `strings.TrimLeftFunc` with `unicode.IsSpace` removes is a run of
encoded white-space runes. -/
theorem trimLeftSpace_decomp (n : Nat) (s : List Nat) (hn : s.length ≤ n) :
    ∃ L, SpaceRun L ∧ s = L ++ trimLeftSpace 0 s := by
  induction n generalizing s with
  | zero =>
    have : s = [] := List.length_eq_zero.mp (by omega)
    subst this
    exact ⟨[], SpaceRun.nil, rfl⟩
  | succ m ih =>
    cases s with
    | nil => exact ⟨[], SpaceRun.nil, rfl⟩
    | cons b rest =>
      rw [trimLeftSpace_step _ (List.cons_ne_nil b rest)]
      split_ifs with hsp
      · have hw := DecodeRuneInString_width b rest
        have hlen : ((b :: rest).drop (DecodeRuneInString (b :: rest)).2).length ≤ m := by
          rw [List.length_drop]; rw [List.length_cons] at hn ⊢; omega
        obtain ⟨L, hL, hs⟩ := ih _ hlen
        refine ⟨(b :: rest).take (DecodeRuneInString (b :: rest)).2 ++ L,
          SpaceRun.cons _ _ (first_chunk _ hsp) hL, ?_⟩
        rw [List.append_assoc, ← hs, List.take_append_drop]
      · exact ⟨[], SpaceRun.nil, rfl⟩

theorem getLast_drop (s : List Nat) (r : Nat) (h : s.getLast? = some r) :
    s.drop (s.length - 1) = [r] ∧ s.getD (s.length - 1) 0 = r ∧ s ≠ [] := by
  obtain ⟨init, rfl⟩ : ∃ init, s = init ++ [r] :=
    ⟨s.dropLast, (List.dropLast_append_getLast? r h).symm⟩
  refine ⟨?_, ?_, by simp⟩
  · rw [List.length_append, List.length_singleton, Nat.add_sub_cancel]
    exact List.drop_left _ _
  · rw [List.length_append, List.length_singleton, Nat.add_sub_cancel]
    simp [List.getD_eq_getElem?_getD]

theorem lastRuneStart_lt (s : List Nat) (h : s ≠ []) : lastRuneStart s < s.length := by
  have hpos : 0 < s.length := List.length_pos.mpr h
  unfold lastRuneStart
  simp only []
  split_ifs <;> omega

/-- The facts about `utf8.DecodeLastRuneInString` that trimming relies on: the
width lies between 1 and the length, a white-space result is the encoding that
ends the text, and the rune found by decoding forward from the same offset has
the same width, also in front of a text that starts a rune. -/
theorem DecodeLast_facts (s : List Nat) (hs : s ≠ []) :
    (DecodeLastRuneInString s).2 ≤ s.length ∧
    (IsSpace (DecodeLastRuneInString s).1 = true →
      IsSpaceChunk (s.drop (s.length - (DecodeLastRuneInString s).2))) ∧
    (∀ R : List Nat, (∀ c, R.head? = some c → isCont c = false) →
      if s.getD (s.length - (DecodeLastRuneInString s).2) 0 ≥ RuneSelf then
        (DecodeRuneInString (s.drop (s.length - (DecodeLastRuneInString s).2) ++ R)).2 =
          (DecodeLastRuneInString s).2
      else (DecodeLastRuneInString s).2 = 1) := by
  have hpos : 0 < s.length := List.length_pos.mpr hs
  cases hl : s.getLast? with
  | none => exact absurd (List.getLast?_eq_none_iff.mp hl) hs
  | some r =>
    obtain ⟨hd1, hg1, -⟩ := getLast_drop s r hl
    by_cases hr : r < RuneSelf
    · have hdl : DecodeLastRuneInString s = (r, 1) := by
        simp [DecodeLastRuneInString, hl, hr]
      rw [hdl]
      refine ⟨by simpa using hpos, ?_, ?_⟩
      · intro hsp
        simp only [] at hsp ⊢
        rw [hd1]
        have hr' : r < 0x80 := hr
        exact IsSpaceChunk_ascii r (by rw [← IsSpace_ascii r hr']; exact hsp)
      · intro R _
        split_ifs with hge
        · have hge2 : s.getD (s.length - 1) 0 ≥ RuneSelf := hge
          rw [hg1] at hge2
          exact absurd hr (Nat.not_lt.mpr hge2)
        · rfl
    · have hstart := lastRuneStart_lt s hs
      have hne : s.drop (lastRuneStart s) ≠ [] := by
        intro he
        have := congrArg List.length he
        rw [List.length_drop, List.length_nil] at this
        omega
      by_cases hm : lastRuneStart s + (DecodeRuneInString (s.drop (lastRuneStart s))).2 ≠ s.length
      · have hdl : DecodeLastRuneInString s = (RuneError, 1) := by
          simp only [DecodeLastRuneInString, hl, hr, if_false, hm, if_true, ne_eq,
            not_false_eq_true]
        rw [hdl]
        refine ⟨by simpa using hpos, ?_, ?_⟩
        · intro hsp
          simp only [] at hsp
          rw [IsSpace_RuneError] at hsp; cases hsp
        · intro R hR
          simp only []
          have hr2 : RuneSelf ≤ r := Nat.le_of_not_lt hr
          rw [hg1, if_pos hr2, hd1, Decode_append_of_start [r] R (by simp) hR,
            Decode_single r hr2]
      · have hm' : lastRuneStart s + (DecodeRuneInString (s.drop (lastRuneStart s))).2 =
            s.length := by
          by_contra hc
          exact hm hc
        have hdl : DecodeLastRuneInString s = DecodeRuneInString (s.drop (lastRuneStart s)) := by
          simp only [DecodeLastRuneInString, hl, hr, if_false, hm]
        have hi : s.length - (DecodeRuneInString (s.drop (lastRuneStart s))).2 =
            lastRuneStart s := by omega
        rw [hdl, hi]
        refine ⟨by omega, ?_, ?_⟩
        · intro hsp
          refine ⟨hne, ?_, hsp⟩
          rw [List.length_drop]; omega
        · intro R hR
          rw [Decode_append_of_start _ R hne hR]
          split_ifs with hge
          · rfl
          · have hlt : s.getD (lastRuneStart s) 0 < 0x80 := by
              have : ¬ RuneSelf ≤ s.getD (lastRuneStart s) 0 := hge
              simp only [RuneSelf] at this
              omega
            have hcons : s.drop (lastRuneStart s) =
                s.getD (lastRuneStart s) 0 :: s.drop (lastRuneStart s + 1) := by
              rw [List.drop_eq_getElem_cons hstart]
              simp [List.getD_eq_getElem?_getD, hstart]
            rw [hcons, Decode_ascii _ _ hlt]

theorem lastIndexNonSpace_spec (fuel : Nat) (s : List Nat) (hf : s.length ≤ fuel) :
    (lastIndexNonSpace fuel s = none → SpaceRun s) ∧
    (∀ i, lastIndexNonSpace fuel s = some i →
      ∃ v R, s = v ++ R ∧ SpaceRun R ∧ v ≠ [] ∧
        i = v.length - (DecodeLastRuneInString v).2 ∧
        IsSpace (DecodeLastRuneInString v).1 = false) := by
  induction fuel generalizing s with
  | zero =>
    have : s = [] := List.length_eq_zero.mp (by omega)
    subst this
    exact ⟨fun _ => SpaceRun.nil, fun i hi => by simp [lastIndexNonSpace] at hi⟩
  | succ n ih =>
    by_cases hs : s = []
    · subst hs
      exact ⟨fun _ => SpaceRun.nil, fun i hi => by simp [lastIndexNonSpace] at hi⟩
    · obtain ⟨hle, hchunk, -⟩ := DecodeLast_facts s hs
      have hw := DecodeLastRuneInString_width s hs
      have hlen : (s.take (s.length - (DecodeLastRuneInString s).2)).length ≤ n := by
        rw [List.length_take]; omega
      have hsplit : s = s.take (s.length - (DecodeLastRuneInString s).2) ++
          s.drop (s.length - (DecodeLastRuneInString s).2) := (List.take_append_drop _ _).symm
      rw [lastIndexNonSpace]
      simp only [hs, if_false]
      by_cases hsp : IsSpace (DecodeLastRuneInString s).1 = true
      · simp only [hsp, if_true]
        obtain ⟨ih1, ih2⟩ := ih _ hlen
        constructor
        · intro hnone
          rw [hsplit]
          exact SpaceRun_append _ _ (ih1 hnone) (SpaceRun_single _ (hchunk hsp))
        · intro i hi
          obtain ⟨v, R, hv, hR, hvne, hiv, hns⟩ := ih2 i hi
          refine ⟨v, R ++ s.drop (s.length - (DecodeLastRuneInString s).2), ?_,
            SpaceRun_append _ _ hR (SpaceRun_single _ (hchunk hsp)), hvne, hiv, hns⟩
          rw [← List.append_assoc, ← hv]
          exact hsplit
      · simp only [hsp, Bool.false_eq_true, if_false]
        constructor
        · intro h; cases h
        · intro i hi
          simp only [Option.some.injEq] at hi
          refine ⟨s, [], by simp, SpaceRun.nil, hs, hi.symm, ?_⟩
          cases h : IsSpace (DecodeLastRuneInString s).1
          · rfl
          · exact absurd h hsp

/-- What `strings.TrimRightFunc` with `unicode.IsSpace` removes is a run of
encoded white-space runes. -/
theorem TrimRightSpace_decomp (s : List Nat) :
    ∃ R, SpaceRun R ∧ s = TrimRightSpace s ++ R := by
  obtain ⟨h1, h2⟩ := lastIndexNonSpace_spec s.length s (Nat.le_refl _)
  unfold TrimRightSpace
  cases hl : lastIndexNonSpace s.length s with
  | none => exact ⟨s, h1 hl, by simp⟩
  | some i =>
    obtain ⟨v, R, hv, hR, hvne, hiv, -⟩ := h2 i hl
    obtain ⟨hle, -, hfwd⟩ := DecodeLast_facts v hvne
    have hw := DecodeLastRuneInString_width v hvne
    have hfw := hfwd R (SpaceRun_head R hR)
    have hilt : i < v.length := by omega
    have hget : s.getD i 0 = v.getD i 0 := by
      rw [hv]
      simp [List.getD_eq_getElem?_getD, List.getElem?_append_left hilt]
    have hdrop : s.drop i = v.drop i ++ R := by
      rw [hv, List.drop_append_of_le_length (by omega)]
    refine ⟨R, hR, ?_⟩
    simp only []
    rw [hget, hdrop]
    rw [← hiv] at hfw
    split_ifs with hge
    · rw [if_pos hge] at hfw
      rw [hfw]
      have : i + (DecodeLastRuneInString v).2 = v.length := by omega
      rw [this, hv, List.take_left]
    · rw [if_neg hge] at hfw
      have : i + 1 = v.length := by omega
      rw [this, hv, List.take_left]

/-- What `strings.TrimSpace` removes at either end is a run of encoded
white-space runes. -/
theorem TrimSpace_decomp (s : List Nat) :
    ∃ L R, SpaceRun L ∧ SpaceRun R ∧ s = L ++ TrimSpace s ++ R := by
  have hA : s = s.takeWhile asciiSpace ++ s.dropWhile asciiSpace :=
    (List.takeWhile_append_dropWhile asciiSpace s).symm
  have hAs : SpaceRun (s.takeWhile asciiSpace) :=
    SpaceRun_of_ascii _ fun c hc => List.mem_takeWhile_imp hc
  unfold TrimSpace
  simp only []
  cases hf : s.dropWhile asciiSpace with
  | nil =>
    refine ⟨s, [], ?_, SpaceRun.nil, by simp⟩
    rw [hf, List.append_nil] at hA
    rw [hA]; exact hAs
  | cons c cs =>
    rw [hf] at hA
    simp only []
    split_ifs with hc
    · obtain ⟨L, hL, hfl⟩ := trimLeftSpace_decomp (c :: cs).length (c :: cs) (Nat.le_refl _)
      obtain ⟨R, hR, hfr⟩ := TrimRightSpace_decomp (trimLeftSpace 0 (c :: cs))
      refine ⟨s.takeWhile asciiSpace ++ L, R, SpaceRun_append _ _ hAs hL, hR, ?_⟩
      rw [List.append_assoc, List.append_assoc, ← hfr, ← hfl]
      exact hA
    · obtain ⟨w, hw, hdec⟩ := rtrim_decomp (c :: cs)
      cases hb : (c :: cs).reverse.dropWhile asciiSpace with
      | nil =>
        rw [hb] at hdec
        simp only [List.reverse_nil, List.nil_append] at hdec
        refine ⟨s.takeWhile asciiSpace, w, hAs, SpaceRun_of_ascii w hw, ?_⟩
        simp only [List.append_nil]
        rw [← hdec]; exact hA
      | cons d ds =>
        rw [hb] at hdec
        simp only []
        split_ifs with hd
        · obtain ⟨R, hR, hfr⟩ := TrimRightSpace_decomp (d :: ds).reverse
          refine ⟨s.takeWhile asciiSpace, R ++ w, hAs,
            SpaceRun_append _ _ hR (SpaceRun_of_ascii w hw), ?_⟩
          rw [List.append_assoc, ← List.append_assoc (TrimRightSpace _), ← hfr, ← hdec]
          exact hA
        · refine ⟨s.takeWhile asciiSpace, w, hAs, SpaceRun_of_ascii w hw, ?_⟩
          rw [List.append_assoc, ← hdec]
          exact hA

theorem Fields_spaceRun_prefix (L x : List Nat) (h : SpaceRun L) :
    Fields (L ++ x) = Fields x := by
  rw [Fields_eq_fieldsRunes, Fields_eq_fieldsRunes, fieldsRunes_spaceRun_prefix false L x h]

theorem Fields_spaceRun_suffix (y R : List Nat) (h : SpaceRun R) :
    Fields (y ++ R) = Fields y := by
  rw [Fields_eq_fieldsRunes, Fields_eq_fieldsRunes,
    fieldsRunes_spaceRun_suffix y.length false [] y R (Nat.le_refl _) h]

/-- Trimming a text does not change its fields. -/
theorem Fields_TrimSpace (s : List Nat) : Fields (TrimSpace s) = Fields s := by
  obtain ⟨L, R, hL, hR, hs⟩ := TrimSpace_decomp s
  conv_rhs => rw [hs]
  rw [List.append_assoc, Fields_spaceRun_prefix _ _ hL, Fields_spaceRun_suffix _ _ hR]

theorem SpaceRun_no_comma (R : List Nat) (h : SpaceRun R) : (0x2C : Nat) ∉ R := by
  intro hm
  rcases SpaceRun_bytes R h _ hm with h1 | h1
  · revert h1; decide
  · omega

theorem TrimSpace_mem (s : List Nat) : ∀ c ∈ TrimSpace s, c ∈ s := by
  obtain ⟨L, R, -, -, hs⟩ := TrimSpace_decomp s
  intro c hc
  rw [hs]
  simp [hc]

/-! ## Lemmas on the two copies of the parser -/

theorem scanWords_agree (i : Nat) (ws : List (List Nat)) (h : ∀ w ∈ ws, (0x20 : Nat) ∉ w) :
    scanWords i ws = Scan.scanWords i ws := by
  induction ws generalizing i with
  | nil => rfl
  | cons w rest ih =>
    rw [scanWords, Scan.scanWords, Split_of_not_mem w 0x20 (h w (by simp)),
      ih _ fun x hx => h x (by simp [hx])]
    rfl

theorem Fields_no_blank (s w : List Nat) (hw : w ∈ Fields s) : (0x20 : Nat) ∉ w := by
  intro hm
  have := no_asciiSpace_of_no_space w (Fields_words s w hw).2.1 _ hm
  revert this; decide

theorem partParams_agree (p : List Nat) : Scan.partParams p = partParams p := by
  unfold Scan.partParams partParams
  simp only []
  rw [scanWords_agree 0 (Fields (TrimSpace p)) fun w hw => Fields_no_blank _ w hw]

/-- What a clause contributes depends on its fields only. -/
theorem partParams_eq_wordsName (p : List Nat) : partParams p = wordsName (Fields p) := by
  unfold partParams wordsName
  simp only []
  by_cases he : TrimSpace p = []
  · have hf : Fields p = [] := by
      rw [← Fields_TrimSpace, he]; rfl
    simp [he, hf]
  · simp only [ne_eq, he, not_false_eq_true, if_true, Fields_TrimSpace]

theorem Split_append_left (L x : List Nat) (c : Nat) (hL : c ∉ L) :
    ∃ p ps, Split x c = p :: ps ∧ Split (L ++ x) c = (L ++ p) :: ps := by
  induction L with
  | nil =>
    cases hs : Split x c with
    | nil => exact absurd hs (Split_ne_nil x c)
    | cons p ps => exact ⟨p, ps, rfl, by simpa using hs⟩
  | cons b rest ih =>
    obtain ⟨p, ps, h1, h2⟩ := ih fun hm => hL (by simp [hm])
    have hb : b ≠ c := fun e => hL (by simp [e])
    exact ⟨p, ps, h1, Split_cons_other b c _ _ _ hb h2⟩

/-- Trimming the parameter text before it is split into clauses does not change
what the clauses contribute. -/
theorem flatMap_partParams_TrimSpace (p : List Nat) :
    (Split (TrimSpace p) 0x2C).flatMap partParams = (Split p 0x2C).flatMap partParams := by
  obtain ⟨L, R, hL, hR, hp⟩ := TrimSpace_decomp p
  obtain ⟨Ls, q, h1, h2⟩ := Split_append_right (TrimSpace p) R 0x2C (SpaceRun_no_comma R hR)
  obtain ⟨x, xs, h3, h4⟩ := Split_append_left L (TrimSpace p ++ R) 0x2C (SpaceRun_no_comma L hL)
  have e1 : (Split (TrimSpace p) 0x2C).flatMap partParams =
      (Split (TrimSpace p ++ R) 0x2C).flatMap partParams := by
    rw [h1, h2, List.flatMap_append, List.flatMap_append]
    simp only [List.flatMap_cons, List.flatMap_nil, List.append_nil]
    rw [partParams_eq_wordsName (q ++ R), partParams_eq_wordsName q,
      Fields_spaceRun_suffix q R hR]
  have e2 : (Split (TrimSpace p ++ R) 0x2C).flatMap partParams =
      (Split (L ++ (TrimSpace p ++ R)) 0x2C).flatMap partParams := by
    rw [h3, h4, List.flatMap_cons, List.flatMap_cons, partParams_eq_wordsName (L ++ x),
      partParams_eq_wordsName x, Fields_spaceRun_prefix L x hL]
  rw [e1, e2, ← List.append_assoc, ← hp]

/-- On every parameter text the generator's parser returns what the clauses of
the untrimmed text contribute. -/
theorem clauseNames_eq (p : List Nat) :
    clauseNames p = (Split p 0x2C).flatMap partParams := by
  unfold clauseNames
  simp only []
  split_ifs with he
  · rw [← flatMap_partParams_TrimSpace, he]
    rfl
  · exact flatMap_partParams_TrimSpace p

theorem scan_clauseNames (p : List Nat) :
    (if p = [] then some [] else some ((Split p 0x2C).flatMap Scan.partParams)) =
      some (clauseNames p) := by
  have hpp : Scan.partParams = partParams := funext partParams_agree
  rw [clauseNames_eq, hpp]
  split_ifs with he
  · subst he; rfl
  · rfl

/-! ## Lemmas on the clause rule and on the text after the parameter list -/

theorem Split_no_sep (s : List Nat) (c : Nat) (part : List Nat) (hp : part ∈ Split s c) :
    c ∉ part := by
  induction s generalizing part with
  | nil =>
    simp [Split] at hp
    subst hp
    simp
  | cons y ys ih =>
    by_cases hy : y = c
    · subst hy
      rw [Split_cons_sep] at hp
      rcases List.mem_cons.mp hp with h | h
      · subst h; simp
      · exact ih part h
    · cases hs : Split ys c with
      | nil => exact absurd hs (Split_ne_nil ys c)
      | cons q qs =>
        rw [Split_cons_other y c ys q qs hy hs] at hp
        rcases List.mem_cons.mp hp with h | h
        · subst h
          intro hm
          rcases List.mem_cons.mp hm with e | e
          · exact hy e.symm
          · exact ih q (by rw [hs]; simp) e
        · exact ih part (by rw [hs]; simp [h])

theorem indexFrom_single_first (c : Nat) (s : List Nat) (k i : Nat)
    (h : indexFrom [c] s k = some i) : k ≤ i ∧ c ∉ s.take (i - k) := by
  induction s generalizing k with
  | nil => simp [indexFrom] at h
  | cons x xs ih =>
    rw [indexFrom] at h
    split_ifs at h with hp
    · simp at h
      subst h
      simp
    · obtain ⟨h1, h2⟩ := ih (k + 1) h
      have hx : c ≠ x := by
        intro e
        apply hp
        simp [List.isPrefixOf, e]
      refine ⟨by omega, ?_⟩
      have e : i - k = (i - (k + 1)) + 1 := by omega
      rw [e, List.take_succ_cons]
      intro hm
      rcases List.mem_cons.mp hm with e1 | e1
      · exact hx e1
      · exact h2 e1

theorem Index_single_first (s : List Nat) (c i : Nat) (h : Index s [c] = some i) :
    c ∉ s.take i := by
  have := (indexFrom_single_first c s 0 i h).2
  simpa using this

/-- The text between the parentheses, when there is one, contains no `)`. -/
theorem parseTail_clauseNames (x : List Nat) :
    ∃ p, parseTail x = clauseNames p ∧ (0x29 : Nat) ∉ p := by
  unfold parseTail
  cases h1 : Index x (bytes "(") with
  | none => exact ⟨[], rfl, by simp⟩
  | some lp =>
    cases h2 : Index (x.drop lp) (bytes ")") with
    | none =>
      simp only [h2]
      exact ⟨[], rfl, by simp⟩
    | some rp =>
      simp only [h2]
      refine ⟨_, rfl, ?_⟩
      rw [bytes_rparen] at h2
      have hf := Index_single_first _ _ _ h2
      intro hm
      apply hf
      have e : List.drop (lp + 1) (List.take (lp + rp) x) =
          List.drop 1 (List.take rp (List.drop lp x)) := by
        rw [List.take_drop, List.drop_drop]
      rw [e] at hm
      exact List.mem_of_mem_drop hm

theorem parse_some_clauseNames (T : CaseRanges) (d : List Nat) (r : List (List Nat))
    (h : parseProcedureParameters T d = some r) : ∃ p, r = clauseNames p ∧ (0x29 : Nat) ∉ p := by
  cases hi : Index (ToUpper T d) (bytes "PROCEDURE") with
  | none =>
    have : parseProcedureParameters T d = some [] := by
      unfold parseProcedureParameters
      split_ifs
      · rfl
      · simp only [hi]
    rw [this] at h
    cases h
    exact ⟨[], rfl, by simp⟩
  | some start =>
    by_cases hle : start ≤ d.length
    · rw [parse_of_index T d start hi hle] at h
      cases h
      obtain ⟨p, h1, h2⟩ := parseTail_clauseNames (d.drop start)
      exact ⟨p, h1, h2⟩
    · have hn : parseProcedureParameters T d = none :=
        (parse_eq_none_iff T d).mpr ⟨start, hi, by omega⟩
      rw [hn] at h
      cases h

theorem scanWords_succ (i : Nat) (ws : List (List Nat)) (h : ∀ w ∈ ws, (0x20 : Nat) ∉ w) :
    scanWords (i + 1) ws = ws.find? notDirection := by
  induction ws generalizing i with
  | nil => rfl
  | cons w rest ih =>
    rw [scanWords, Split_of_not_mem w 0x20 (h w (by simp)), List.find?_cons,
      ih _ fun x hx => h x (by simp [hx])]
    cases hn : notDirection w <;> simp

/-- What a list of fields contributes: among the words after the first, the
first that is not a direction keyword. -/
theorem wordsName_find (ws : List (List Nat)) (h : ∀ w ∈ ws, (0x20 : Nat) ∉ w) :
    wordsName ws = (ws.tail.find? notDirection).toList := by
  unfold wordsName
  cases ws with
  | nil => rfl
  | cons w0 rest =>
    cases rest with
    | nil => rfl
    | cons w1 more =>
      have hl : (w0 :: w1 :: more).length ≥ 2 := by simp
      rw [if_pos hl, scanWords]
      simp only [gt_iff_lt, Nat.lt_irrefl, false_and, if_false, List.tail_cons]
      rw [scanWords_succ 0 (w1 :: more) fun x hx => h x (by simp [hx])]

theorem partParams_find (clause : List Nat) :
    partParams clause = ((Fields clause).tail.find? notDirection).toList := by
  rw [partParams_eq_wordsName, wordsName_find _ fun w hw => Fields_no_blank clause w hw]

theorem find_after_directions (dirs rest : List (List Nat)) (w : List Nat)
    (hd : ∀ x ∈ dirs, isDirection x = true) (hw : isDirection w = false) :
    (dirs ++ w :: rest).find? notDirection = some w := by
  induction dirs with
  | nil => simp [notDirection_eq, hw]
  | cons x xs ih =>
    have hx : notDirection x = false := by simp [notDirection_eq, hd x (by simp)]
    rw [List.cons_append, List.find?_cons, hx]
    exact ih fun y hy => hd y (by simp [hy])

theorem find_all_directions (ws : List (List Nat)) (hd : ∀ x ∈ ws, isDirection x = true) :
    ws.find? notDirection = none := by
  rw [List.find?_eq_none]
  intro x hx
  simp [notDirection_eq, hd x hx]

theorem indexFrom_append (sub s t : List Nat) (k i : Nat) (hsub : sub ≠ [])
    (h : indexFrom sub s k = some i) : indexFrom sub (s ++ t) k = some i := by
  induction s generalizing k with
  | nil => simp [indexFrom, hsub] at h
  | cons c cs ih =>
    rw [indexFrom] at h
    rw [List.cons_append, indexFrom]
    split_ifs at h with hp
    · have hp2 : sub.isPrefixOf (c :: (cs ++ t)) = true := by
        rw [List.isPrefixOf_iff_prefix] at hp ⊢
        exact hp.trans (List.prefix_append (c :: cs) t)
      rw [if_pos hp2]; exact h
    · have hp2 : ¬ sub.isPrefixOf (c :: (cs ++ t)) = true := by
        intro hq
        apply hp
        rw [List.isPrefixOf_iff_prefix] at hq ⊢
        obtain ⟨u, v, huv, _⟩ := indexFrom_some sub cs (k + 1) i h
        have hlen : sub.length ≤ (c :: cs).length := by
          have := congrArg List.length huv
          simp at this ⊢
          omega
        exact List.prefix_of_prefix_length_le hq (List.prefix_append (c :: cs) t) hlen
      rw [if_neg hp2]
      exact ih (k + 1) h

theorem Index_append (s t sub : List Nat) (i : Nat) (hsub : sub ≠ [])
    (h : Index s sub = some i) : Index (s ++ t) sub = some i :=
  indexFrom_append sub s t 0 i hsub h

/-- The value of the parser on a text whose ASCII beginning holds the keyword, the
opening parenthesis and the first closing parenthesis after it. -/
theorem parse_ascii_prefix (T : CaseRanges) (pre head body s : List Nat)
    (hascii : isASCII (pre ++ head ++ bytes "(" ++ body ++ bytes ")") = true)
    (hkw : Index ((pre ++ head ++ bytes "(" ++ body ++ bytes ")").map upperByte)
      (bytes "PROCEDURE") = some pre.length)
    (hhead : 0x28 ∉ head) (hbody : 0x29 ∉ body) :
    parseProcedureParameters T (pre ++ head ++ bytes "(" ++ body ++ bytes ")" ++ s) =
      some (clauseNames body) := by
  obtain ⟨t, ht⟩ := ToUpper_ascii_prefix T _ s hascii
  have hi : Index (ToUpper T (pre ++ head ++ bytes "(" ++ body ++ bytes ")" ++ s))
      (bytes "PROCEDURE") = some pre.length := by
    rw [ht]
    exact Index_append _ _ _ _ (by decide) hkw
  rw [parse_of_index T _ pre.length hi (by simp)]
  have hd : (pre ++ head ++ bytes "(" ++ body ++ bytes ")" ++ s).drop pre.length =
      head ++ bytes "(" ++ body ++ bytes ")" ++ s := by
    simp only [List.append_assoc]
    exact List.drop_left _ _
  rw [hd, parseTail_paren head body s hhead hbody]

theorem file_two_methods (T : CaseRanges) (dbConfig : DatabaseConfig) (p1 p2 : ProcedureInfo)
    (l1 l2 l3 : List ProcedureInfo) :
    ∃ a b c, (generateProcedureFile T dbConfig (l1 ++ p1 :: l2 ++ p2 :: l3)).2 =
      a ++ (bytes "func (pc *ProcedureCaller) " ++ toCamelCase T p1.Name ++ bytes "(") ++ b ++
        (bytes "func (pc *ProcedureCaller) " ++ toCamelCase T p2.Name ++ bytes "(") ++ c := by
  have hm : ∀ p : ProcedureInfo, ∃ x y, generateProcedureMethod T [] p =
      x ++ (bytes "func (pc *ProcedureCaller) " ++ toCamelCase T p.Name ++ bytes "(") ++ y := by
    intro p
    have h := generateProcedureMethod_shape T p
    simp only [List.append_assoc] at h
    have cut : ∀ a b c d e F N P R : List Nat,
        a ++ (b ++ (c ++ (d ++ (e ++ (F ++ (N ++ (P ++ R))))))) =
          (a ++ b ++ c ++ d ++ e) ++ (F ++ N ++ P) ++ R := by
      intros; simp only [List.append_assoc]
    exact ⟨_, _, h.trans (cut _ _ _ _ _ _ _ _ _)⟩
  obtain ⟨x1, y1, h1⟩ := hm p1
  obtain ⟨x2, y2, h2⟩ := hm p2
  refine ⟨writePreamble [] ++ (l1.map (generateProcedureMethod T [])).flatten ++ x1,
    y1 ++ (l2.map (generateProcedureMethod T [])).flatten ++ x2,
    y2 ++ (l3.map (generateProcedureMethod T [])).flatten ++ writeHelpers [], ?_⟩
  simp only [generateProcedureFile]
  rw [writeHelpers_append, foldl_generateProcedureMethod]
  simp only [List.map_append, List.map_cons, List.flatten_append, List.flatten_cons, h1, h2,
    List.append_assoc]

/-! ## The claims -/

/-- C1, at the name `état_client`: the first byte of the first segment is cut
off and upper-cased on its own, which yields the replacement character U+FFFD,
and the remaining byte of `é` yields a second one; the result is U+FFFD U+FFFD
followed by `tatClient`, not `ÉtatClient`, although `é` alone is upper-cased
to `É`.  On the three ASCII examples of the claim the results are `UserId`,
`Id` and the empty string. -/
theorem C1_toCamelCase_non_ascii_segment :
    toCamelCase latinCaseRanges (bytes "état_client") =
      [0xEF, 0xBF, 0xBD, 0xEF, 0xBF, 0xBD] ++ bytes "tatClient" ∧
    toCamelCase latinCaseRanges (bytes "état_client") ≠ bytes "ÉtatClient" ∧
    ToUpper latinCaseRanges (bytes "é") = bytes "É" ∧
    toCamelCase latinCaseRanges (bytes "user_id") = bytes "UserId" ∧
    toCamelCase latinCaseRanges (bytes "id") = bytes "Id" ∧
    toCamelCase latinCaseRanges (bytes "") = bytes "" := by
  decide

/-- C2, as amended: when the text before the substring
`PROCEDURE name(IN a INT, OUT b VARCHAR(10))` is ASCII and contains no
case-insensitive occurrence of `PROCEDURE`, the parser returns `["a", "b"]`,
whatever follows the substring. -/
theorem C2_signature_after_clean_prefix (T : CaseRanges) (pre post : List Nat)
    (hpre : isASCII pre = true)
    (hno : Index (pre.map upperByte) (bytes "PROCEDURE") = none) :
    parseProcedureParameters T
      (pre ++ bytes "PROCEDURE name(IN a INT, OUT b VARCHAR(10))" ++ post) =
      some [bytes "a", bytes "b"] := by
  have hsa : isASCII (pre ++ bytes "PROCEDURE name(IN a INT, OUT b VARCHAR(10))") = true := by
    rw [isASCII_append, hpre]; decide
  obtain ⟨t, ht⟩ := ToUpper_ascii_prefix T _ post hsa
  have hidx : Index (ToUpper T (pre ++ bytes "PROCEDURE name(IN a INT, OUT b VARCHAR(10))" ++ post))
      (bytes "PROCEDURE") = some pre.length := by
    rw [ht, List.map_append]
    have e : (bytes "PROCEDURE name(IN a INT, OUT b VARCHAR(10))").map upperByte =
        bytes "PROCEDURE" ++ bytes " NAME(IN A INT, OUT B VARCHAR(10))" := by decide
    rw [e, Index, List.append_assoc, List.append_assoc,
      indexFrom_keyword _ _ 0 (indexFrom_none _ _ 0 hno)]
    simp
  rw [parse_of_index T _ _ hidx (by simp)]
  have hd : (pre ++ bytes "PROCEDURE name(IN a INT, OUT b VARCHAR(10))" ++ post).drop pre.length =
      bytes "PROCEDURE name" ++ bytes "(" ++ bytes "IN a INT, OUT b VARCHAR(10" ++ bytes ")" ++
        (bytes ")" ++ post) := by
    rw [List.append_assoc, List.drop_left]
    have : bytes "PROCEDURE name(IN a INT, OUT b VARCHAR(10))" =
        bytes "PROCEDURE name" ++ bytes "(" ++ bytes "IN a INT, OUT b VARCHAR(10" ++ bytes ")" ++
          bytes ")" := by decide
    rw [this]; simp only [List.append_assoc]
  rw [hd, parseTail_paren _ _ _ (by decide) (by decide)]
  have : clauseNames (bytes "IN a INT, OUT b VARCHAR(10") = [bytes "a", bytes "b"] := by decide
  rw [this]

/-- C2, as amended, at `CREATE PROCEDURE name(IN a INT, OUT b VARCHAR(10))`
followed by a body. -/
theorem C2_signature_after_clean_prefix_witness :
    parseProcedureParameters latinCaseRanges
      (bytes "CREATE " ++ bytes "PROCEDURE name(IN a INT, OUT b VARCHAR(10))" ++
        bytes "\nBEGIN SELECT 1; END") = some [bytes "a", bytes "b"] :=
  C2_signature_after_clean_prefix latinCaseRanges (bytes "CREATE ") (bytes "\nBEGIN SELECT 1; END")
    (by decide) (by decide)

/-- C2, as stated, fails: the text
`/* procedures (v2) */ CREATE PROCEDURE name(IN a INT, OUT b VARCHAR(10))`
contains the substring, but the first occurrence of `PROCEDURE` lies in the
comment and the parser returns the empty sequence. -/
theorem C2_counterexample :
    parseProcedureParameters latinCaseRanges
      (bytes "/* procedures (v2) */ CREATE " ++
        bytes "PROCEDURE name(IN a INT, OUT b VARCHAR(10))" ++ []) = some [] ∧
    parseProcedureParameters latinCaseRanges
      (bytes "/* procedures (v2) */ CREATE " ++
        bytes "PROCEDURE name(IN a INT, OUT b VARCHAR(10))" ++ []) ≠
      some [bytes "a", bytes "b"] := by
  decide

/-- C3: for an ASCII definition text whose first case-insensitive occurrence of
`PROCEDURE` starts at the end of `pre`, is followed by text `head` without `(`,
then by `(`, by the clauses `c1,...,cn` separated by commas and by `)`, each
clause being of the form `<direction> <name_i> [<type tokens>]` (see
`WellFormedClause`), the parser returns exactly `[name_1, ..., name_n]`, in
declaration order. -/
theorem C3_declared_names_in_order (T : CaseRanges) (pre head post : List Nat)
    (clauses names : List (List Nat))
    (hascii : isASCII
      (pre ++ head ++ bytes "(" ++ Join clauses (bytes ",") ++ bytes ")" ++ post) = true)
    (hkw : Index ((pre ++ head ++ bytes "(" ++ Join clauses (bytes ",") ++ bytes ")" ++
      post).map upperByte) (bytes "PROCEDURE") = some pre.length)
    (hhead : 0x28 ∉ head)
    (hcl : List.Forall₂ WellFormedClause clauses names) :
    parseProcedureParameters T
      (pre ++ head ++ bytes "(" ++ Join clauses (bytes ",") ++ bytes ")" ++ post) = some names := by
  have hbody : isASCII (Join clauses (bytes ",")) = true := by
    simp only [isASCII_append, Bool.and_eq_true] at hascii
    exact hascii.1.1.2
  apply parse_wellformed T pre head post clauses names _ hbody hhead hcl
  rw [ToUpper_ascii T _ hascii]
  exact hkw

/-- C3, at `create procedure p(in a int, InOut b text)`: the result is
`["a", "b"]`. -/
theorem C3_declared_names_in_order_witness :
    parseProcedureParameters latinCaseRanges
      (bytes "create procedure p(in a int, InOut b text)") = some [bytes "a", bytes "b"] :=
  C3_declared_names_in_order latinCaseRanges (bytes "create ") (bytes "procedure p") []
    [bytes "in a int", bytes " InOut b text"] [bytes "a", bytes "b"]
    (by decide) (by decide) (by decide)
    (List.Forall₂.cons
      ⟨[], bytes "in", bytes " ", bytes " int", by decide, by decide, by decide, by decide,
        by decide, by decide, by decide, by decide, Or.inr ⟨0x20, bytes "int", by decide, by decide⟩,
        by decide⟩
      (List.Forall₂.cons
        ⟨bytes " ", bytes "InOut", bytes " ", bytes " text", by decide, by decide, by decide,
          by decide, by decide, by decide, by decide, by decide,
          Or.inr ⟨0x20, bytes "text", by decide, by decide⟩, by decide⟩
        List.Forall₂.nil))

/-- C4, at a text whose comment holds fifteen letters `ɐ` and whose parameter
list `()` is empty: upper-casing lengthens each of the letters by one byte, the
offset of `PROCEDURE` found in the upper-cased copy (56) lies fifteen bytes
after the keyword of the original text (41), past the parameter list, and the
parser returns `["AS"]` from the parentheses of `CAST(1 AS CHAR)` instead of
the empty sequence. -/
theorem C4_shifted_offset_nonempty_result :
    Index (bytes "-- ɐɐɐɐɐɐɐɐɐɐɐɐɐɐɐ\nCREATE PROCEDURE noop() BEGIN SELECT CAST(1 AS CHAR); END")
      (bytes "PROCEDURE") = some 41 ∧
    Index (ToUpper latinCaseRanges
      (bytes "-- ɐɐɐɐɐɐɐɐɐɐɐɐɐɐɐ\nCREATE PROCEDURE noop() BEGIN SELECT CAST(1 AS CHAR); END"))
      (bytes "PROCEDURE") = some 56 ∧
    parseProcedureParameters latinCaseRanges
      (bytes "-- ɐɐɐɐɐɐɐɐɐɐɐɐɐɐɐ\nCREATE PROCEDURE noop() BEGIN SELECT CAST(1 AS CHAR); END") =
      some [bytes "AS"] := by
  decide

/-- C5: both wrappers of a procedure with `n` parameters contain the statement
`CALL <name>(` + `n` placeholders `?` separated by `,` + `)`, with the procedure
name as given, followed by the `n` bound arguments `toCamelCase(p_1)`, ...,
`toCamelCase(p_n)` in parameter order, once inside `Exec(...)` and once inside
`Raw(...).Rows()`; the placeholder list has exactly `n` question marks and
`n - 1` commas, and for `n = 0` the statement is `CALL <name>()` with nothing
bound. -/
theorem C5_call_placeholders_match_parameters (T : CaseRanges) (proc : ProcedureInfo)
    (name : List Nat) :
    (∃ pre mid post, generateProcedureMethod T [] proc =
      pre ++ (bytes "pc.db.WithContext(ctx).Exec(" ++ callWithArgs T proc ++ bytes ").Error") ++
      mid ++ (bytes "pc.db.WithContext(ctx).Raw(" ++ callWithArgs T proc ++ bytes ").Rows()") ++
      post) ∧
    (placeholders proc.Parameters.length).count 0x3F = proc.Parameters.length ∧
    (placeholders proc.Parameters.length).count 0x2C = proc.Parameters.length - 1 ∧
    (proc.Parameters.map fun p => bytes ", " ++ toCamelCase T p).length =
      proc.Parameters.length ∧
    callWithArgs T ⟨name, [], [], []⟩ = bytes "\"CALL " ++ name ++ bytes "()\"" := by
  refine ⟨⟨(bytes "// " ++ toCamelCase T proc.Name ++ bytes " 调用存储过程 " ++ proc.Name ++
        bytes "\n") ++
      (bytes "func (pc *ProcedureCaller) " ++ toCamelCase T proc.Name ++ bytes "(" ++
        argumentList T proc ++ bytes ") error \x7b\n") ++ bytes "\treturn ",
    bytes "\n" ++ bytes "\x7d\n\n" ++
      (bytes "// " ++ (toCamelCase T proc.Name ++ bytes "WithResult") ++ bytes " 调用存储过程 " ++
        proc.Name ++ bytes " 并返回结果\n") ++
      (bytes "func (pc *ProcedureCaller) " ++ (toCamelCase T proc.Name ++ bytes "WithResult") ++
        bytes "(" ++ argumentList T proc ++
        bytes ") ([]map[string]interface\x7b\x7d, error) \x7b\n") ++
      bytes "\tvar results []map[string]interface\x7b\x7d\n" ++ bytes "\trows, err := ",
    bytes "\n" ++ resultLoopText, ?_⟩,
    (count_placeholders _).1, (count_placeholders _).2, by simp, ?_⟩
  · rw [generateProcedureMethod_shape]
    simp only [List.append_assoc]
  · have e : bytes "()\"" = bytes "(" ++ bytes ")\"" := by decide
    simp [callWithArgs, placeholders, Join, e]

/-- C6: for a procedure `m` with parameters `p_1..p_n` the emitted text
contains a method `toCamelCase(m)` with argument list `ctx context.Context`
followed by `toCamelCase(p_i) interface{}` for every parameter in order and
return type `error`, and a method `toCamelCase(m)WithResult` with the same
argument list and return type `([]map[string]interface{}, error)`; for
`add_user` with parameters `p_name`, `p_age` the two signatures are
`AddUser(ctx context.Context, PName interface{}, PAge interface{}) error` and
`AddUserWithResult(ctx context.Context, PName interface{}, PAge interface{})
([]map[string]interface{}, error)`. -/
theorem C6_wrapper_signatures (T : CaseRanges) (proc : ProcedureInfo) :
    (∃ pre mid post, generateProcedureMethod T [] proc =
      pre ++
      (bytes "func (pc *ProcedureCaller) " ++ toCamelCase T proc.Name ++ bytes "(" ++
        argumentList T proc ++ bytes ") error \x7b\n") ++
      mid ++
      (bytes "func (pc *ProcedureCaller) " ++ (toCamelCase T proc.Name ++ bytes "WithResult") ++
        bytes "(" ++ argumentList T proc ++
        bytes ") ([]map[string]interface\x7b\x7d, error) \x7b\n") ++
      post) ∧
    (proc.Parameters.map fun p =>
      bytes ", " ++ toCamelCase T p ++ bytes " interface\x7b\x7d").length =
        proc.Parameters.length ∧
    (bytes "func (pc *ProcedureCaller) " ++ toCamelCase T (bytes "add_user") ++ bytes "(" ++
        argumentList T ⟨bytes "add_user", [bytes "p_name", bytes "p_age"], [], []⟩ ++
        bytes ") error \x7b\n" =
      bytes "func (pc *ProcedureCaller) AddUser(ctx context.Context, PName interface\x7b\x7d, PAge interface\x7b\x7d) error \x7b\n") ∧
    (bytes "func (pc *ProcedureCaller) " ++ (toCamelCase T (bytes "add_user") ++ bytes "WithResult") ++
        bytes "(" ++ argumentList T ⟨bytes "add_user", [bytes "p_name", bytes "p_age"], [], []⟩ ++
        bytes ") ([]map[string]interface\x7b\x7d, error) \x7b\n" =
      bytes "func (pc *ProcedureCaller) AddUserWithResult(ctx context.Context, PName interface\x7b\x7d, PAge interface\x7b\x7d) ([]map[string]interface\x7b\x7d, error) \x7b\n") := by
  refine ⟨⟨bytes "// " ++ toCamelCase T proc.Name ++ bytes " 调用存储过程 " ++ proc.Name ++
        bytes "\n",
    bytes "\treturn " ++
      (bytes "pc.db.WithContext(ctx).Exec(" ++ callWithArgs T proc ++ bytes ").Error") ++
      bytes "\n" ++ bytes "\x7d\n\n" ++
      (bytes "// " ++ (toCamelCase T proc.Name ++ bytes "WithResult") ++ bytes " 调用存储过程 " ++
        proc.Name ++ bytes " 并返回结果\n"),
    bytes "\tvar results []map[string]interface\x7b\x7d\n" ++ bytes "\trows, err := " ++
      (bytes "pc.db.WithContext(ctx).Raw(" ++ callWithArgs T proc ++ bytes ").Rows()") ++
      bytes "\n" ++ resultLoopText, ?_⟩, by simp, rfl, rfl⟩
  rw [generateProcedureMethod_shape]
  simp only [List.append_assoc]

/-- C7: the text handed to the file writer is `H ++ M(ps[0]) ++ ... ++
M(ps[k-1]) ++ T` with `H` the preamble and `T` the two helpers, both fixed
texts, and `M(p)` the text `generateProcedureMethod` emits for `p` on an empty
builder; it does not depend on the database config, and the methods of
`ps1 ++ ps2` are the methods of `ps1` followed by those of `ps2`. -/
theorem C7_file_text_is_header_methods_trailer (T : CaseRanges) (dbConfig other : DatabaseConfig)
    (ps ps1 ps2 : List ProcedureInfo) :
    (generateProcedureFile T dbConfig ps).2 =
      writePreamble [] ++ (ps.map (generateProcedureMethod T [])).flatten ++ writeHelpers [] ∧
    (generateProcedureFile T other ps).2 = (generateProcedureFile T dbConfig ps).2 ∧
    (generateProcedureFile T dbConfig (ps1 ++ ps2)).2 =
      writePreamble [] ++
        ((ps1.map (generateProcedureMethod T [])).flatten ++
          (ps2.map (generateProcedureMethod T [])).flatten) ++ writeHelpers [] := by
  have h : ∀ (c : DatabaseConfig) (l : List ProcedureInfo), (generateProcedureFile T c l).2 =
      writePreamble [] ++ (l.map (generateProcedureMethod T [])).flatten ++ writeHelpers [] := by
    intro c l
    simp only [generateProcedureFile]
    rw [writeHelpers_append, foldl_generateProcedureMethod]
  refine ⟨h _ _, ?_, ?_⟩
  · rw [h, h]
  · rw [h, List.map_append, List.flatten_append]

/-- C8, as amended: let `start` be the offset at which the parser finds the
keyword, and let the text from there on be `head ++ "(" ++ body ++ ")" ++ post`
with no `(` in `head` and no `)` in `body`, so that `body` is the parameter text.
For every comma-separated clause of `body` whose white-space-separated tokens
are exactly a direction keyword followed by one token `ty` that is not a
direction keyword, the parser takes `ty` as the name of that clause: the result
is what the clauses before it contribute, then `ty`, then what the clauses
after it contribute.  The parser never looks at the first token of a clause;
that it is a direction keyword only delimits the clauses the statement is
about.  For `PROCEDURE p(IN INT)` the result is `["INT"]`, for
`PROCEDURE p(IN INT, IN a INT)` it is `["INT", "a"]`, for
`PROCEDURE p(IN INT, b VARCHAR)` it is `["INT", "VARCHAR"]`, and for
`PROCEDURE p(IN VARCHAR(10))`, whose parameter text ends at the first `)`, it
is `["VARCHAR(10"]`. -/
theorem C8_direction_type_clause_yields_type (T : CaseRanges) (definition : List Nat)
    (start : Nat) (head body post : List Nat) (before after : List (List Nat))
    (clause dir ty : List Nat)
    (hkw : Index (ToUpper T definition) (bytes "PROCEDURE") = some start)
    (hdef : definition.drop start = head ++ bytes "(" ++ body ++ bytes ")" ++ post)
    (hhead : 0x28 ∉ head) (hbody : 0x29 ∉ body)
    (hsplit : Split body 0x2C = before ++ [clause] ++ after)
    (hfields : Fields clause = [dir, ty])
    (_hdir : isDirection dir = true) (hty : isDirection ty = false) :
    parseProcedureParameters T definition =
      some (before.flatMap partParams ++ [ty] ++ after.flatMap partParams) ∧
    parseProcedureParameters T (bytes "PROCEDURE p(IN INT)") = some [bytes "INT"] ∧
    parseProcedureParameters T (bytes "PROCEDURE p(IN INT, IN a INT)") =
      some [bytes "INT", bytes "a"] ∧
    parseProcedureParameters T (bytes "PROCEDURE p(IN INT, b VARCHAR)") =
      some [bytes "INT", bytes "VARCHAR"] ∧
    parseProcedureParameters T (bytes "PROCEDURE p(IN VARCHAR(10))") =
      some [bytes "VARCHAR(10"] := by
  have hle : start ≤ definition.length := by
    by_contra hlt
    rw [List.drop_eq_nil_of_le (by omega)] at hdef
    have := congrArg List.length hdef
    simp [bytes_lparen] at this
    omega
  have hclause : partParams clause = [ty] := by
    have hfind := find_after_directions [] [] ty (by simp) hty
    rw [List.nil_append] at hfind
    rw [partParams_find, hfields, List.tail_cons, hfind]
    rfl
  refine ⟨?_, rfl, rfl, rfl, rfl⟩
  rw [parse_of_index T definition start hkw hle, hdef, parseTail_paren head body post hhead hbody,
    clauseNames_eq, hsplit, List.flatMap_append, List.flatMap_append, List.flatMap_cons,
    List.flatMap_nil, List.append_nil, hclause]

/-- C8, as amended, at `PROCEDURE p(IN INT, b VARCHAR)` and its first clause
`IN INT`: the result is `["INT", "VARCHAR"]`. -/
theorem C8_direction_type_clause_yields_type_witness :
    parseProcedureParameters latinCaseRanges (bytes "PROCEDURE p(IN INT, b VARCHAR)") =
      some [bytes "INT", bytes "VARCHAR"] :=
  (C8_direction_type_clause_yields_type latinCaseRanges (bytes "PROCEDURE p(IN INT, b VARCHAR)") 0
    (bytes "PROCEDURE p") (bytes "IN INT, b VARCHAR") [] [] [bytes " b VARCHAR"]
    (bytes "IN INT") (bytes "IN") (bytes "INT")
    (by decide) (by decide) (by decide) (by decide) (by decide) (by decide) (by decide)
    (by decide)).1

/-- C8, as stated, fails: for `PROCEDURE p(IN INT)` the parser returns `["INT"]`,
not the empty sequence, and for `PROCEDURE p(IN INT, IN a INT)` it returns
`["INT", "a"]`, not `["a"]`. -/
theorem C8_counterexample :
    parseProcedureParameters latinCaseRanges (bytes "PROCEDURE p(IN INT)") = some [bytes "INT"] ∧
    parseProcedureParameters latinCaseRanges (bytes "PROCEDURE p(IN INT)") ≠ some [] ∧
    parseProcedureParameters latinCaseRanges (bytes "PROCEDURE p(IN INT, IN a INT)") =
      some [bytes "INT", bytes "a"] ∧
    parseProcedureParameters latinCaseRanges (bytes "PROCEDURE p(IN INT, IN a INT)") ≠
      some [bytes "a"] := by
  decide

/-- C9, at a text of 52 bytes whose comment holds fourteen letters `ɐ`:
upper-casing lengthens each of them by one byte, `PROCEDURE` is found in the
upper-cased copy at offset 53, and the slice `definition[53:]` of the original
text is out of range: the parser aborts. -/
theorem C9_slice_out_of_range :
    (bytes "-- ɐɐɐɐɐɐɐɐɐɐɐɐɐɐ\nCREATE PROCEDURE p()").length = 52 ∧
    Index (ToUpper latinCaseRanges (bytes "-- ɐɐɐɐɐɐɐɐɐɐɐɐɐɐ\nCREATE PROCEDURE p()"))
      (bytes "PROCEDURE") = some 53 ∧
    sliceFrom (bytes "-- ɐɐɐɐɐɐɐɐɐɐɐɐɐɐ\nCREATE PROCEDURE p()") 53 = none ∧
    parseProcedureParameters latinCaseRanges (bytes "-- ɐɐɐɐɐɐɐɐɐɐɐɐɐɐ\nCREATE PROCEDURE p()") =
      none := by
  decide

/-- C10: the loop of `main` calls the per-database step once on every config
of the list, in list order, whatever the outcomes are: the state of the outside
world after the loop is the one obtained by running the step over the whole
list, the output is, config by config, the start line followed by the failure
line on the logger or by the completion line, according to the outcome of that
config alone, and a step that records its calls sees exactly the list of
configs for every assignment of outcomes. -/
theorem C10_batch_isolation {σ : Type} (gen : σ → DatabaseConfig → σ × Option (List Nat))
    (w : σ) (cfgs : List DatabaseConfig) (f : Nat → DatabaseConfig → Option (List Nat)) :
    mainLoop gen w [] cfgs =
      (cfgs.foldl (fun w c => (gen w c).1) w, (outcomes gen w cfgs).flatMap report) ∧
    (outcomes gen w cfgs).map Prod.fst = cfgs ∧
    (mainLoop (fun (calls : List DatabaseConfig) c => (calls ++ [c], f calls.length c))
      [] [] cfgs).1 = cfgs := by
  refine ⟨?_, outcomes_fst gen cfgs w, ?_⟩
  · rw [mainLoop_eq]; simp
  · rw [mainLoop_eq]
    have := foldl_record f cfgs []
    simpa using this

/-- C11: parentheses are not balanced.  Let `p = pre ++ head ++ "(" ++ body ++ ")"`
be ASCII text in which the first case-insensitive occurrence of `PROCEDURE`
starts at the end of `pre`, `head` (the keyword and what follows it) has no `(`
and `body` has no `)`, so that `p` ends at the first `)` after the first `(`
after the keyword.  Then for all texts `s1`, `s2` (ASCII or not) the parser
returns the same on `p ++ s1` and on `p ++ s2`, namely what the clauses of
`body` contribute.  For `PROCEDURE p(IN a DECIMAL(10,2), IN b INT)` the
result is `["a"]`: the parameter `b` is dropped. -/
theorem C11_text_after_first_closing_paren_ignored (T : CaseRanges)
    (pre head body s1 s2 : List Nat)
    (hascii : isASCII (pre ++ head ++ bytes "(" ++ body ++ bytes ")") = true)
    (hkw : Index ((pre ++ head ++ bytes "(" ++ body ++ bytes ")").map upperByte)
      (bytes "PROCEDURE") = some pre.length)
    (hhead : 0x28 ∉ head) (hbody : 0x29 ∉ body) :
    parseProcedureParameters T (pre ++ head ++ bytes "(" ++ body ++ bytes ")" ++ s1) =
      parseProcedureParameters T (pre ++ head ++ bytes "(" ++ body ++ bytes ")" ++ s2) ∧
    parseProcedureParameters T (pre ++ head ++ bytes "(" ++ body ++ bytes ")" ++ s1) =
      some ((Split body 0x2C).flatMap partParams) ∧
    parseProcedureParameters T (bytes "PROCEDURE p(IN a DECIMAL(10,2), IN b INT)") =
      some [bytes "a"] := by
  have h1 := parse_ascii_prefix T pre head body s1 hascii hkw hhead hbody
  have h2 := parse_ascii_prefix T pre head body s2 hascii hkw hhead hbody
  refine ⟨h1.trans h2.symm, ?_, rfl⟩
  rw [h1, clauseNames_eq]

/-- C11, at the prefix `create procedure p(IN a DECIMAL(10,2` + `)`: the
continuations `, IN b INT)` and ` BEGIN END` give the same result. -/
theorem C11_text_after_first_closing_paren_ignored_witness :
    parseProcedureParameters latinCaseRanges
      (bytes "create " ++ bytes "procedure p" ++ bytes "(" ++ bytes "IN a DECIMAL(10,2" ++
        bytes ")" ++ bytes ", IN b INT)") =
    parseProcedureParameters latinCaseRanges
      (bytes "create " ++ bytes "procedure p" ++ bytes "(" ++ bytes "IN a DECIMAL(10,2" ++
        bytes ")" ++ bytes " BEGIN END") :=
  (C11_text_after_first_closing_paren_ignored latinCaseRanges (bytes "create ")
    (bytes "procedure p") (bytes "IN a DECIMAL(10,2") (bytes ", IN b INT)") (bytes " BEGIN END")
    (by decide) (by decide) (by decide) (by decide)).1

/-- C12: the per-clause rule.  Let `start` be the offset at which the parser
finds the keyword, and let the text from there on be `head ++ "(" ++ body ++
")" ++ post` with no `(` in `head` and no `)` in `body`.  Then the result is the
concatenation, over the comma-separated clauses of `body` in order, of what
each clause contributes by itself (`partParams`), where a clause contributes
at most one name; none when it has fewer than two white-space-separated
tokens; the token `w_j` when its tokens are `w_0, ..., w_k` and `j >= 1` is
least such that `w_j` is no case-insensitive match for `IN`, `OUT` or `INOUT`;
and none when all tokens after the first are such matches.  For
`PROCEDURE p(a INT, b VARCHAR)` the result is `["INT", "VARCHAR"]`. -/
theorem C12_per_clause_rule (T : CaseRanges) (definition : List Nat) (start : Nat)
    (head body post : List Nat)
    (hkw : Index (ToUpper T definition) (bytes "PROCEDURE") = some start)
    (hdef : definition.drop start = head ++ bytes "(" ++ body ++ bytes ")" ++ post)
    (hhead : 0x28 ∉ head) (hbody : 0x29 ∉ body) :
    parseProcedureParameters T definition = some ((Split body 0x2C).flatMap partParams) ∧
    (∀ clause, (partParams clause).length ≤ 1) ∧
    (∀ clause, (Fields clause).length < 2 → partParams clause = []) ∧
    (∀ clause w0 dirs wj rest, Fields clause = w0 :: (dirs ++ wj :: rest) →
      (∀ w ∈ dirs, isDirection w = true) → isDirection wj = false →
      partParams clause = [wj]) ∧
    (∀ clause w0 rest, Fields clause = w0 :: rest → (∀ w ∈ rest, isDirection w = true) →
      partParams clause = []) ∧
    parseProcedureParameters T (bytes "PROCEDURE p(a INT, b VARCHAR)") =
      some [bytes "INT", bytes "VARCHAR"] := by
  have hle : start ≤ definition.length := by
    by_contra hlt
    rw [List.drop_eq_nil_of_le (by omega)] at hdef
    have := congrArg List.length hdef
    simp [bytes_lparen] at this
    omega
  refine ⟨?_, ?_, ?_, ?_, ?_, rfl⟩
  · rw [parse_of_index T definition start hkw hle, hdef, parseTail_paren head body post hhead hbody,
      clauseNames_eq]
  · intro clause
    rw [partParams_find]
    cases List.find? notDirection (Fields clause).tail <;> simp
  · intro clause hlen
    rw [partParams_find]
    cases hf : Fields clause with
    | nil => rfl
    | cons w ws =>
      cases ws with
      | nil => rfl
      | cons v vs =>
        rw [hf] at hlen
        simp only [List.length_cons] at hlen
        omega
  · intro clause w0 dirs wj rest hf hd hw
    rw [partParams_find, hf, List.tail_cons, find_after_directions dirs rest wj hd hw]
    rfl
  · intro clause w0 rest hf hd
    rw [partParams_find, hf, List.tail_cons, find_all_directions rest hd]
    rfl

/-- C12, at `PROCEDURE p(a INT, b VARCHAR)`: the result is what the clauses
`a INT` and ` b VARCHAR` contribute. -/
theorem C12_per_clause_rule_witness :
    parseProcedureParameters latinCaseRanges (bytes "PROCEDURE p(a INT, b VARCHAR)") =
      some ((Split (bytes "a INT, b VARCHAR") 0x2C).flatMap partParams) :=
  (C12_per_clause_rule latinCaseRanges (bytes "PROCEDURE p(a INT, b VARCHAR)") 0
    (bytes "PROCEDURE p") (bytes "a INT, b VARCHAR") [] (by decide) (by decide) (by decide)
    (by decide)).1

/-- C13: the parser of `cmd/scan` and the parser of `cmd/generate-procedures`
return the same sequence on every definition text, and abort on the same
texts, although only the latter tests for the empty text, trims the parameter
text before the emptiness test and before splitting, and cuts the chosen word
at its first space. -/
theorem C13_parsers_agree (T : CaseRanges) (definition : List Nat) :
    Scan.parseProcedureParameters T definition = parseProcedureParameters T definition := by
  by_cases hd : definition = []
  · subst hd; rfl
  · unfold Scan.parseProcedureParameters parseProcedureParameters
    simp only [hd, if_false]
    cases Index (ToUpper T definition) (bytes "PROCEDURE") with
    | none => rfl
    | some start =>
      simp only []
      cases sliceFrom definition start with
      | none => rfl
      | some afterKeyword =>
        simp only []
        cases Index afterKeyword (bytes "(") with
        | none => rfl
        | some leftParen =>
          simp only []
          cases sliceFrom definition (start + leftParen) with
          | none => rfl
          | some afterParen =>
            simp only []
            cases Index afterParen (bytes ")") with
            | none => rfl
            | some rightParen =>
              simp only []
              cases slice definition (start + leftParen + 1) (start + leftParen + rightParen) with
              | none => rfl
              | some paramStr =>
                show (if paramStr = [] then some []
                    else some ((Split paramStr 0x2C).flatMap Scan.partParams)) =
                  (if TrimSpace paramStr = [] then some []
                    else some ((Split (TrimSpace paramStr) 0x2C).flatMap partParams))
                rw [scan_clauseNames, clauseNames]
                split_ifs <;> rfl

/-- C14: every name the parser returns is non-empty, holds no white space (no
rune decoded at any of its offsets is a white-space character, and none of its
bytes is an ASCII blank), holds no `,` and no `)`, and is no case-insensitive
match for `IN`, `OUT` or `INOUT`. -/
theorem C14_names_well_formed (T : CaseRanges) (definition : List Nat)
    (names : List (List Nat)) (h : parseProcedureParameters T definition = some names)
    (name : List Nat) (hname : name ∈ names) :
    name ≠ [] ∧
    (∀ i, IsSpace (DecodeRuneInString (name.drop i)).1 = false) ∧
    (∀ c ∈ name, asciiSpace c = false ∧ c ≠ 0x2C ∧ c ≠ 0x29) ∧
    isDirection name = false := by
  obtain ⟨p, rfl, hp⟩ := parse_some_clauseNames T definition names h
  rw [clauseNames_eq, List.mem_flatMap] at hname
  obtain ⟨clause, hclause, hmem⟩ := hname
  rw [partParams_find] at hmem
  cases hf : List.find? notDirection (Fields clause).tail with
  | none => rw [hf] at hmem; simp at hmem
  | some w =>
    rw [hf] at hmem
    simp at hmem
    subst hmem
    have hnd : notDirection name = true := by simpa using List.find?_some hf
    have hw : name ∈ Fields clause := List.mem_of_mem_tail (List.mem_of_find?_eq_some hf)
    obtain ⟨h1, h2, h3⟩ := Fields_words clause name hw
    refine ⟨h1, h2, ?_, ?_⟩
    · intro c hc
      refine ⟨no_asciiSpace_of_no_space name h2 c hc, ?_, ?_⟩
      · rintro rfl
        exact Split_no_sep p 0x2C clause hclause (h3 _ hc)
      · rintro rfl
        exact hp (mem_of_mem_Split p 0x2C clause hclause _ (h3 _ hc))
    · rw [notDirection_eq] at hnd
      simpa using hnd

/-- C14, at `PROCEDURE p(IN a INT, OUT total DECIMAL(10,2))` and its second
name `total`. -/
theorem C14_names_well_formed_witness :
    bytes "total" ≠ [] ∧
    (∀ i, IsSpace (DecodeRuneInString ((bytes "total").drop i)).1 = false) ∧
    (∀ c ∈ bytes "total", asciiSpace c = false ∧ c ≠ 0x2C ∧ c ≠ 0x29) ∧
    isDirection (bytes "total") = false :=
  C14_names_well_formed latinCaseRanges (bytes "PROCEDURE p(IN a INT, OUT total DECIMAL(10,2))")
    [bytes "a", bytes "total"] (by decide) (bytes "total") (by decide)

/-- C15: `toCamelCase` is not injective.  The distinct names `get_user`,
`get__user` and `GET_USER` all become `GetUser`; and for every procedure list
that holds a procedure named `get_user` and, further on, one named `get__user`,
whatever their parameters and the other procedures are, the text of the
generated file holds the method header `func (pc *ProcedureCaller) GetUser(`
at two separate places. -/
theorem C15_toCamelCase_not_injective (T : CaseRanges) (dbConfig : DatabaseConfig)
    (params1 params2 : List (List Nat)) (ret1 ret2 def1 def2 : List Nat)
    (l1 l2 l3 : List ProcedureInfo) :
    bytes "get_user" ≠ bytes "get__user" ∧ bytes "get_user" ≠ bytes "GET_USER" ∧
    toCamelCase T (bytes "get_user") = bytes "GetUser" ∧
    toCamelCase T (bytes "get__user") = bytes "GetUser" ∧
    toCamelCase T (bytes "GET_USER") = bytes "GetUser" ∧
    ∃ a b c, (generateProcedureFile T dbConfig
        (l1 ++ [⟨bytes "get_user", params1, ret1, def1⟩] ++ l2 ++
          [⟨bytes "get__user", params2, ret2, def2⟩] ++ l3)).2 =
      a ++ bytes "func (pc *ProcedureCaller) GetUser(" ++ b ++
        bytes "func (pc *ProcedureCaller) GetUser(" ++ c := by
  refine ⟨by decide, by decide, rfl, rfl, rfl, ?_⟩
  obtain ⟨a, b, c, h⟩ := file_two_methods T dbConfig ⟨bytes "get_user", params1, ret1, def1⟩
    ⟨bytes "get__user", params2, ret2, def2⟩ l1 l2 l3
  refine ⟨a, b, c, ?_⟩
  have e1 : toCamelCase T (bytes "get_user") = bytes "GetUser" := rfl
  have e2 : toCamelCase T (bytes "get__user") = bytes "GetUser" := rfl
  have e3 : bytes "func (pc *ProcedureCaller) GetUser(" =
      bytes "func (pc *ProcedureCaller) " ++ bytes "GetUser" ++ bytes "(" := by decide
  have el : l1 ++ [(⟨bytes "get_user", params1, ret1, def1⟩ : ProcedureInfo)] ++ l2 ++
      [⟨bytes "get__user", params2, ret2, def2⟩] ++ l3 =
      l1 ++ ⟨bytes "get_user", params1, ret1, def1⟩ :: l2 ++
        ⟨bytes "get__user", params2, ret2, def2⟩ :: l3 := by simp
  rw [el, h, e1, e2, e3]

end GenProc
